import Mathlib

/-!
Verification of the rendering engine of a format-preserving TOML document
model (`src/display.rs`).  The data model and every rendering function is a
shallow embedding of the Rust source.  Output is modelled at the granularity
of the `write!` calls of the source: each rendering function produces the
list of string chunks it writes, in order; the text output is the
concatenation of the chunks.
-/

namespace Toml

/-- A pair of raw text fragments surrounding a syntactic element
(`decor.prefix` / `decor.suffix` in the source; the field names are
shortened to `pre` / `suf` here). -/
structure Decor where
  pre : String
  suf : String
deriving DecidableEq

/-- A decorated raw lexeme (`Repr` in the source). -/
structure Repr where
  decor : Decor
  raw_value : String
deriving DecidableEq

/-- A parsed value paired with its textual representation (`Formatted<T>`).
Rendering delegates entirely to `repr`; the parsed payload is never read by
the renderer. -/
structure Formatted (α : Type) where
  value : α
  repr : Toml.Repr

/-- Modelled from the spec: the four chrono datetime payloads of `DateTime`
are external collaborators whose canonical `Display` rendering is out of
scope; each variant carries that rendered text as an opaque string. -/
inductive DateTime where
  | OffsetDateTime (d : String)
  | LocalDateTime (d : String)
  | LocalDate (d : String)
  | LocalTime (d : String)
deriving DecidableEq

mutual

/-- The closed set of value variants (`Value` in `value.rs`, as used by
`impl Display for Value`). -/
inductive Value where
  | Integer (f : Formatted Int)
  | String (f : Formatted String)
  | Float (f : Formatted Float)
  | Boolean (f : Formatted Bool)
  | DateTime (f : Formatted DateTime)
  | Array (a : Array)
  | InlineTable (t : InlineTable)

/-- An ordered sequence of values with decor, raw trailing text and a
trailing-comma flag (`Array`). -/
inductive Array where
  | mk (decor : Decor) (trailing : String) (trailing_comma : Bool) (values : List Value)

/-- A single-line key/value mapping (`InlineTable`): decor, the raw text
right after the opening brace (`preamble`) and the ordered entries. -/
inductive InlineTable where
  | mk (decor : Decor) (preamble : String) (items : List TableKeyValue)

/-- One entry of a table's ordered mapping (`TableKeyValue`): the key's
decorated lexeme and the attached item. -/
inductive TableKeyValue where
  | mk (key : Repr) (value : Item)

/-- The tagged content attached to a key (`Item`). The `ArrayOfTables`
variant carries its member tables directly as a list, matching the
sequence iterated by `a.iter()` in the source. -/
inductive Item where
  | None
  | Value (v : Value)
  | Table (t : Table)
  | ArrayOfTables (ts : List Table)

/-- A (possibly nested) table (`Table`): decor, the `implicit` flag, the
original source `position` (`Option<usize>`) and the ordered entries. -/
inductive Table where
  | mk (decor : Decor) (implicit : Bool) (position : Option Nat) (items : List TableKeyValue)

end

def Array.decor : Array → Decor
  | .mk d _ _ _ => d

def Array.trailing : Array → String
  | .mk _ t _ _ => t

def Array.trailing_comma : Array → Bool
  | .mk _ _ c _ => c

def Array.values : Array → List Value
  | .mk _ _ _ vs => vs

def InlineTable.decor : InlineTable → Decor
  | .mk d _ _ => d

def InlineTable.preamble : InlineTable → String
  | .mk _ p _ => p

def InlineTable.items : InlineTable → List TableKeyValue
  | .mk _ _ is => is

def TableKeyValue.key : TableKeyValue → Repr
  | .mk k _ => k

def TableKeyValue.value : TableKeyValue → Item
  | .mk _ v => v

def Table.decor : Table → Decor
  | .mk d _ _ _ => d

def Table.implicit : Table → Bool
  | .mk _ i _ _ => i

def Table.position : Table → Option Nat
  | .mk _ _ p _ => p

def Table.items : Table → List TableKeyValue
  | .mk _ _ _ is => is

/-- `Item::is_value` from `table.rs` (only its result is observable in
`display.rs`; modelled from the spec's "entries whose Item variant is a
plain Value"). -/
def Item.is_value : Item → Bool
  | .Value _ => true
  | _ => false

/-- Modelled from the spec: `Table::values_len`, the number of direct
entries whose item is a plain `Value` ("zero direct Value entries"). -/
def Table.values_len (t : Table) : Nat :=
  (t.items.filter (fun kv => kv.value.is_value)).length

/-- The document: the root table plus the raw trailing text of the file. -/
structure Document where
  root : Table
  trailing : String

/-- `Document::as_table`. -/
def Document.as_table (d : Document) : Table :=
  d.root

/-- `impl Display for Repr`: `prefix ++ raw_value ++ suffix`, one chunk per
`{}` placeholder of the `write!`. -/
def reprChunks (r : Repr) : List String :=
  [r.decor.pre, r.raw_value, r.decor.suf]

/-- `impl Display for Formatted<T>`: delegates to the repr. -/
def formattedChunks {α : Type} (f : Formatted α) : List String :=
  reprChunks f.repr

/-- `impl Display for DateTime`: each variant writes its payload's canonical
text. -/
def dateTimeChunks : DateTime → List String
  | .OffsetDateTime d => [d]
  | .LocalDateTime d => [d]
  | .LocalDate d => [d]
  | .LocalTime d => [d]

mutual

/-- `impl Display for Value`: dispatch on the active variant. -/
def valueChunks : Value → List String
  | .Integer f => formattedChunks f
  | .String f => formattedChunks f
  | .Float f => formattedChunks f
  | .Boolean f => formattedChunks f
  | .DateTime f => formattedChunks f
  | .Array a => arrayChunks a
  | .InlineTable t => inlineTableChunks t

/-- `impl Display for Array`: prefix, `[`, the comma-joined elements, the
optional trailing comma, the raw trailing text, `]`, suffix. -/
def arrayChunks : Array → List String
  | .mk decor trailing trailing_comma values =>
    [decor.pre, "["] ++ joinValueChunks 0 values
      ++ (if trailing_comma then [","] else [])
      ++ [trailing] ++ ["]", decor.suf]

/-- The `join` helper of the source, instantiated at the array's value
iterator: a `,` chunk before every element except the first (`i > 0`). -/
def joinValueChunks : Nat → List Value → List String
  | _, [] => []
  | i, v :: vs =>
    (if i > 0 then [","] else []) ++ valueChunks v ++ joinValueChunks (i + 1) vs

/-- `impl Display for InlineTable`: prefix, `{`, preamble, then the
filter/enumerate loop over the entries, then `}`, suffix. -/
def inlineTableChunks : InlineTable → List String
  | .mk decor preamble items =>
    [decor.pre, "\x7b", preamble] ++ inlinePairChunks 0 items ++ ["\x7d", decor.suf]

/-- The body of the inline-table loop: entries whose item is not a plain
value are filtered out before `enumerate`, so the separator index `i`
counts only emitted entries. -/
def inlinePairChunks : Nat → List TableKeyValue → List String
  | _, [] => []
  | i, ⟨key, .Value v⟩ :: rest =>
    (if i > 0 then [","] else []) ++ reprChunks key ++ ["="] ++ valueChunks v
      ++ inlinePairChunks (i + 1) rest
  | i, ⟨_, .None⟩ :: rest => inlinePairChunks i rest
  | i, ⟨_, .Table _⟩ :: rest => inlinePairChunks i rest
  | i, ⟨_, .ArrayOfTables _⟩ :: rest => inlinePairChunks i rest

end

/-- The table-body loop of `visit_table`: a `key=value` line for every
direct entry whose item is a plain value. -/
def bodyChunks : List TableKeyValue → List String
  | [] => []
  | ⟨key, .Value v⟩ :: rest => reprChunks key ++ ["="] ++ valueChunks v ++ ["\n"] ++ bodyChunks rest
  | _ :: rest => bodyChunks rest

/-- `visit_table` in the source: the header line (suppressed for the root,
for implicit value-less plain tables), then one `key=value` line per direct
value entry.  `String.intercalate "." path` is `path.join(".")`. -/
def visitTableChunks (t : Table) (path : List String) (is_array_of_tables : Bool) : List String :=
  (if path.isEmpty then []
   else if is_array_of_tables then
     [t.decor.pre, "[[", String.intercalate "." path, "]]", t.decor.suf, "\n"]
   else if !(t.implicit && t.values_len == 0) then
     [t.decor.pre, "[", String.intercalate "." path, "]", t.decor.suf, "\n"]
   else [])
  ++ bodyChunks t.items

/-- Extract the value of an `Except` whose error type is uninhabited
(used for the infallible `String` sink, where `write!` always succeeds). -/
def okOf {α : Type} : Except Empty α → α
  | .ok a => a

mutual

/-- `Table::visit_nested_tables`: invoke the callback on the table itself,
then recurse into nested tables and array-of-tables members.  The mutable
`path` vector is threaded explicitly: the key is pushed before each descent
and the last element popped after the recursive call returns, exactly as in
the source; the callback's `Result` return is the `Except ε`. -/
def visit_nested_tables {σ ε : Type} (cb : Table → List String → Bool → σ → Except ε σ) :
    Table → Bool → List String → σ → Except ε (List String × σ)
  | t@(.mk _ _ _ items), is_array_of_tables, path, s => do
    let s ← cb t path is_array_of_tables s
    visitItemsAux cb items path s

/-- The `for kv in self.items.values()` loop of `visit_nested_tables`. -/
def visitItemsAux {σ ε : Type} (cb : Table → List String → Bool → σ → Except ε σ) :
    List TableKeyValue → List String → σ → Except ε (List String × σ)
  | [], path, s => pure (path, s)
  | ⟨key, .Table t⟩ :: rest, path, s => do
    let path := path ++ [key.raw_value]
    let (path, s) ← visit_nested_tables cb t false path s
    let path := path.dropLast
    visitItemsAux cb rest path s
  | ⟨key, .ArrayOfTables ts⟩ :: rest, path, s => do
    let (path, s) ← visitAotAux cb key.raw_value ts path s
    visitItemsAux cb rest path s
  | ⟨_, .None⟩ :: rest, path, s => visitItemsAux cb rest path s
  | ⟨_, .Value _⟩ :: rest, path, s => visitItemsAux cb rest path s

/-- The `for t in a.iter()` loop inside the `ArrayOfTables` arm: push the
key, visit the member with `is_array_of_tables = true`, pop. -/
def visitAotAux {σ ε : Type} (cb : Table → List String → Bool → σ → Except ε σ) (key : String) :
    List Table → List String → σ → Except ε (List String × σ)
  | [], path, s => pure (path, s)
  | t :: ts, path, s => do
    let path := path ++ [key]
    let (path, s) ← visit_nested_tables cb t true path s
    let path := path.dropLast
    visitAotAux cb key ts path s

end

/-- `impl Display for Table`: run the DFS from an empty path with the
`visit_table` printer as callback, writing chunks into the (infallible)
output. -/
def tableDisplayChunks (t : Table) : List String :=
  (okOf (visit_nested_tables
    (fun t p b (s : List String) => (Except.ok (s ++ visitTableChunks t p b) : Except Empty _))
    t false [] [])).2

/-- `impl Display for Document`: the root table then the trailing text. -/
def documentChunks (d : Document) : List String :=
  tableDisplayChunks d.as_table ++ [d.trailing]

/-- The plain-order rendering of a document (`Document`'s `Display`). -/
def Document.toDisplayString (d : Document) : String :=
  String.join (documentChunks d)

/-- The mutable state of the original-order reconstruction closure:
the schedule cursor (`current_position`), the rest of the sorted position
iterator, the `should_print` flag, and the caller's state (the output). -/
structure OOState (σ : Type) where
  current : Option Nat
  remaining : List Nat
  should_print : Bool
  user : σ

/-- The closure body inside the `while` loop of
`visit_nested_tables_in_original_order`: early-return when the schedule is
exhausted and printing is off; on a positioned table compare with the
cursor, advancing it on a match; print through the caller's callback when
`should_print` holds. -/
def ooStep {σ ε : Type} (cb : Table → List String → Bool → σ → Except ε σ)
    (t : Table) (path : List String) (is_array : Bool) (st : OOState σ) : Except ε (OOState σ) :=
  if st.current.isNone && !st.should_print then pure st
  else
    let st :=
      match t.position with
      | some _ =>
        if t.position = st.current then
          { st with current := st.remaining.head?, remaining := st.remaining.tail,
                    should_print := true }
        else
          { st with should_print := false }
      | none => st
    if st.should_print then do
      let u ← cb t path is_array st.user
      pure { st with user := u }
    else pure st

/-- Insertion step of the ascending sort used for `positions.sort()`. -/
def insertNat (x : Nat) : List Nat → List Nat
  | [] => [x]
  | y :: ys => if x ≤ y then x :: y :: ys else y :: insertNat x ys

/-- `positions.sort()`: ascending insertion sort. -/
def sortNat : List Nat → List Nat
  | [] => []
  | x :: xs => insertNat x (sortNat xs)

/-- The `while current_position.is_some()` loop: run a full DFS pass with
the `ooStep` closure, then clear `should_print` and repeat.  The loop is
given fuel; `visit_nested_tables_in_original_order` supplies
`positions.len() + 1`, which the termination theorem shows is enough. -/
def ooLoop {σ ε : Type} (cb : Table → List String → Bool → σ → Except ε σ)
    (t : Table) (is_aot : Bool) :
    Nat → List String → OOState σ → Except ε (List String × OOState σ)
  | 0, path, st => pure (path, st)
  | fuel + 1, path, st =>
    if st.current.isSome then do
      let (path, st) ← visit_nested_tables (ooStep cb) t is_aot path st
      ooLoop cb t is_aot fuel path { st with should_print := false }
    else pure (path, st)

/-- `Table::visit_nested_tables_in_original_order`: collect every position
in the tree, sort ascending, then repeatedly re-walk the tree following the
schedule. -/
def visit_nested_tables_in_original_order {σ ε : Type}
    (cb : Table → List String → Bool → σ → Except ε σ) (t : Table) (is_aot : Bool)
    (path : List String) (s : σ) : Except ε (List String × σ) := do
  let (path, positions) ← visit_nested_tables
      (fun t _ _ (ps : List Nat) =>
        pure (match t.position with | some p => ps ++ [p] | none => ps))
      t is_aot path []
  let sorted := sortNat positions
  let st : OOState σ := ⟨sorted.head?, sorted.tail, true, s⟩
  let (path, st) ← ooLoop cb t is_aot (positions.length + 1) path st
  pure (path, st.user)

/-- `Document::to_string_in_original_order`: original-order DFS into a
string, then the trailing text. -/
def Document.to_string_in_original_order (d : Document) : String :=
  String.join ((okOf (visit_nested_tables_in_original_order
    (fun t p b (s : List String) => (Except.ok (s ++ visitTableChunks t p b) : Except Empty _))
    d.as_table false [] [])).2) ++ d.trailing

theorem except_ok_bind {ε α β : Type} (a : α) (f : α → Except ε β) :
    (Except.ok a : Except ε α) >>= f = f a := rfl

theorem except_error_bind {ε α β : Type} (e : ε) (f : α → Except ε β) :
    (Except.error e : Except ε α) >>= f = Except.error e := rfl

theorem except_pure {ε α : Type} (a : α) : (pure a : Except ε α) = Except.ok a := rfl

theorem except_map_ok {ε α β : Type} (f : α → β) (a : α) :
    (Except.ok a : Except ε α).map f = Except.ok (f a) := rfl

theorem except_map_error {ε α β : Type} (f : α → β) (e : ε) :
    (Except.error e : Except ε α).map f = Except.error e := rfl

/-- One DFS callback invocation record: the visited table, the path at the
moment of the call, and the is-array-of-tables flag. -/
abbrev Visit := Table × List String × Bool

mutual

/-- The sequence of callback invocations performed by
`Table::visit_nested_tables`, as a pure list. -/
def visitSeq : Table → List String → Bool → List Visit
  | t@(.mk _ _ _ items), path, b => (t, path, b) :: seqItems items path

/-- Invocations contributed by the entry loop. -/
def seqItems : List TableKeyValue → List String → List Visit
  | [], _ => []
  | ⟨key, .Table t⟩ :: rest, path =>
    visitSeq t (path ++ [key.raw_value]) false ++ seqItems rest path
  | ⟨key, .ArrayOfTables ts⟩ :: rest, path =>
    seqAot key.raw_value ts path ++ seqItems rest path
  | ⟨_, .None⟩ :: rest, path => seqItems rest path
  | ⟨_, .Value _⟩ :: rest, path => seqItems rest path

/-- Invocations contributed by an array-of-tables entry. -/
def seqAot (key : String) : List Table → List String → List Visit
  | [], _ => []
  | t :: ts, path => visitSeq t (path ++ [key]) true ++ seqAot key ts path

end

/-- Folding a callback over a list of visit records, with the same
short-circuiting as the `?` operator. -/
def foldCB {σ ε : Type} (cb : Table → List String → Bool → σ → Except ε σ) :
    List Visit → σ → Except ε σ
  | [], s => pure s
  | (t, p, b) :: rest, s => cb t p b s >>= foldCB cb rest

theorem foldCB_append {σ ε : Type} (cb : Table → List String → Bool → σ → Except ε σ)
    (l₁ l₂ : List Visit) (s : σ) :
    foldCB cb (l₁ ++ l₂) s = foldCB cb l₁ s >>= foldCB cb l₂ := by
  induction l₁ generalizing s with
  | nil => simp [foldCB, except_ok_bind, except_pure]
  | cons e rest ih =>
    obtain ⟨t, p, b⟩ := e
    simp only [List.cons_append, foldCB]
    cases cb t p b s with
    | ok s' => simp [except_ok_bind, ih]
    | error e' => simp [except_error_bind]

mutual

/-- Flattening: the DFS traversal is the fold of the callback over the pure
visit sequence, and it restores the path. -/
theorem visit_eq_fold {σ ε : Type} (cb : Table → List String → Bool → σ → Except ε σ) :
    ∀ (t : Table) (b : Bool) (path : List String) (s : σ),
      visit_nested_tables cb t b path s
        = (foldCB cb (visitSeq t path b) s).map (fun s' => (path, s'))
  | .mk de im po items, b, path, s => by
    rw [visit_nested_tables, visitSeq]
    show (cb (.mk de im po items) path b s) >>= (fun s => visitItemsAux cb items path s) = _
    rw [foldCB]
    cases cb (.mk de im po items) path b s with
    | ok s' => rw [except_ok_bind, except_ok_bind, visitItems_eq_fold cb items path s']
    | error e' => rw [except_error_bind, except_error_bind, except_map_error]

theorem visitItems_eq_fold {σ ε : Type} (cb : Table → List String → Bool → σ → Except ε σ) :
    ∀ (items : List TableKeyValue) (path : List String) (s : σ),
      visitItemsAux cb items path s
        = (foldCB cb (seqItems items path) s).map (fun s' => (path, s'))
  | [], path, s => rfl
  | ⟨key, .Table t⟩ :: rest, path, s => by
    rw [visitItemsAux, seqItems, foldCB_append]
    rw [visit_eq_fold cb t false (path ++ [key.raw_value]) s]
    cases foldCB cb (visitSeq t (path ++ [key.raw_value]) false) s with
    | ok s' =>
      rw [except_map_ok, except_ok_bind, except_ok_bind]
      show visitItemsAux cb rest ((path ++ [key.raw_value]).dropLast) s' = _
      rw [List.dropLast_concat, visitItems_eq_fold cb rest path s']
    | error e' => rw [except_map_error, except_error_bind, except_error_bind, except_map_error]
  | ⟨key, .ArrayOfTables ts⟩ :: rest, path, s => by
    rw [visitItemsAux, seqItems, foldCB_append]
    rw [visitAot_eq_fold cb key.raw_value ts path s]
    cases foldCB cb (seqAot key.raw_value ts path) s with
    | ok s' =>
      rw [except_map_ok, except_ok_bind, except_ok_bind]
      exact visitItems_eq_fold cb rest path s'
    | error e' => rw [except_map_error, except_error_bind, except_error_bind, except_map_error]
  | ⟨key, .None⟩ :: rest, path, s => by
    rw [visitItemsAux, seqItems]
    exact visitItems_eq_fold cb rest path s
  | ⟨key, .Value v⟩ :: rest, path, s => by
    rw [visitItemsAux, seqItems]
    exact visitItems_eq_fold cb rest path s

theorem visitAot_eq_fold {σ ε : Type} (cb : Table → List String → Bool → σ → Except ε σ)
    (key : String) :
    ∀ (ts : List Table) (path : List String) (s : σ),
      visitAotAux cb key ts path s
        = (foldCB cb (seqAot key ts path) s).map (fun s' => (path, s'))
  | [], path, s => rfl
  | t :: ts, path, s => by
    rw [visitAotAux, seqAot, foldCB_append]
    rw [visit_eq_fold cb t true (path ++ [key]) s]
    cases foldCB cb (visitSeq t (path ++ [key]) true) s with
    | ok s' =>
      rw [except_map_ok, except_ok_bind, except_ok_bind]
      show visitAotAux cb key ts ((path ++ [key]).dropLast) s' = _
      rw [List.dropLast_concat, visitAot_eq_fold cb key ts path s']
    | error e' => rw [except_map_error, except_error_bind, except_error_bind, except_map_error]

end

/-- The position of a visited table. -/
def vpos (e : Visit) : Option Nat :=
  e.1.position

/-- Pure model of one `ooStep` on the schedule state: the sorted-position
iterator is represented as the list `S` (cursor = `S.head?`, rest =
`S.tail`) together with the `should_print` flag. -/
def stepSched (S : List Nat) (sp : Bool) (e : Visit) : List Nat × Bool :=
  if S.isEmpty && !sp then (S, sp)
  else
    match vpos e with
    | some _ => if vpos e = S.head? then (S.tail, true) else (S, false)
    | none => (S, sp)

/-- Pure model of one full DFS pass of the original-order loop: thread the
schedule state through the visit list; an entry is emitted exactly when
`should_print` holds right after its own step. -/
def passModel : List Nat × Bool → List Visit → (List Nat × Bool) × List Visit
  | st, [] => (st, [])
  | st, e :: L =>
    let st' := stepSched st.1 st.2 e
    let r := passModel st' L
    (r.1, (if st'.2 then [e] else []) ++ r.2)

/-- Pure model of the `while current_position.is_some()` loop. -/
def loopModel : Nat → List Nat × Bool → List Visit → (List Nat × Bool) × List Visit
  | 0, st, _ => (st, [])
  | fuel + 1, st, L =>
    if st.1.isEmpty then (st, [])
    else
      let r := passModel st L
      let r' := loopModel fuel (r.1.1, false) L
      (r'.1, r.2 ++ r'.2)

theorem except_bind_pure_comp {ε α β : Type} (m : Except ε α) (f : α → β) :
    (m >>= fun a => pure (f a) : Except ε β) = m.map f := by
  cases m <;> rfl

theorem ooStep_sim {σ ε : Type} (cb : Table → List String → Bool → σ → Except ε σ)
    (e : Visit) (S : List Nat) (sp : Bool) (u : σ) :
    ooStep cb e.1 e.2.1 e.2.2 ⟨S.head?, S.tail, sp, u⟩
      = (if (stepSched S sp e).2 then cb e.1 e.2.1 e.2.2 u else pure u).map
          (fun u' => ⟨(stepSched S sp e).1.head?, (stepSched S sp e).1.tail,
                      (stepSched S sp e).2, u'⟩) := by
  obtain ⟨t, p, b⟩ := e
  rw [ooStep, stepSched]
  cases hS : S <;> cases sp <;> cases ht : t.position <;>
    simp only [vpos, ht, List.head?_nil, List.tail_nil, List.isEmpty_nil, List.head?_cons,
      List.tail_cons, List.isEmpty_cons, Option.isNone_none, Option.isNone_some, Bool.not_false,
      Bool.not_true, Bool.and_self, Bool.and_false, Bool.false_and, Bool.false_eq_true,
      if_false, if_true, ite_true, ite_false, reduceIte] <;>
    (try split) <;>
    (cases hc : cb t p b u <;>
      simp [hc, Except.map, except_pure, except_ok_bind, except_error_bind])

theorem passModel_sim {σ ε : Type} (cb : Table → List String → Bool → σ → Except ε σ)
    (L : List Visit) (S : List Nat) (sp : Bool) (u : σ) :
    foldCB (ooStep cb) L ⟨S.head?, S.tail, sp, u⟩
      = (foldCB cb (passModel (S, sp) L).2 u).map
          (fun u' => ⟨(passModel (S, sp) L).1.1.head?, (passModel (S, sp) L).1.1.tail,
                      (passModel (S, sp) L).1.2, u'⟩) := by
  induction L generalizing S sp u with
  | nil => rfl
  | cons e L ih =>
    obtain ⟨t, p, b⟩ := e
    rw [foldCB]
    rw [show ooStep cb t p b ⟨S.head?, S.tail, sp, u⟩
          = ooStep cb (t, p, b).1 (t, p, b).2.1 (t, p, b).2.2 ⟨S.head?, S.tail, sp, u⟩ from rfl]
    rw [ooStep_sim cb (t, p, b) S sp u]
    rw [passModel]
    rcases hstep : stepSched S sp (t, p, b) with ⟨S1, sp1⟩
    simp only [hstep]
    cases sp1 with
    | true =>
      simp only [if_true, reduceIte]
      cases hc : cb (t, p, b).1 (t, p, b).2.1 (t, p, b).2.2 u with
      | error e1 =>
        simp [hc, Except.map, except_error_bind, foldCB, except_ok_bind]
      | ok u1 =>
        simp only [hc, Except.map, except_ok_bind, List.singleton_append, foldCB]
        have hih := ih S1 true u1
        rw [hih]
        cases hfold : foldCB cb (passModel (S1, true) L).2 u1 <;> simp [hfold, Except.map]
    | false =>
      simp only [Bool.false_eq_true, if_false, reduceIte, except_pure, Except.map,
        except_ok_bind, List.nil_append]
      have hih := ih S1 false u
      rw [hih]
      cases hfold : foldCB cb (passModel (S1, false) L).2 u <;> simp [hfold, Except.map]

theorem ooLoop_sim {σ ε : Type} (cb : Table → List String → Bool → σ → Except ε σ)
    (t : Table) (is_aot : Bool) (fuel : Nat) (path : List String)
    (S : List Nat) (sp : Bool) (u : σ) :
    ooLoop cb t is_aot fuel path ⟨S.head?, S.tail, sp, u⟩
      = (foldCB cb (loopModel fuel (S, sp) (visitSeq t path is_aot)).2 u).map
          (fun u' => (path,
            (⟨(loopModel fuel (S, sp) (visitSeq t path is_aot)).1.1.head?,
              (loopModel fuel (S, sp) (visitSeq t path is_aot)).1.1.tail,
              (loopModel fuel (S, sp) (visitSeq t path is_aot)).1.2, u'⟩ : OOState σ))) := by
  induction fuel generalizing S sp u with
  | zero => rfl
  | succ fuel ih =>
    rw [ooLoop, loopModel]
    cases hS : S with
    | nil =>
      simp [List.head?_nil, List.tail_nil, Option.isSome_none, List.isEmpty_nil, foldCB,
        except_pure, Except.map]
    | cons x xs =>
      simp only [List.head?_cons, List.tail_cons, Option.isSome_some, List.isEmpty_cons,
        Bool.false_eq_true, if_true, if_false, reduceIte]
      rw [visit_eq_fold (ooStep cb) t is_aot path ⟨some x, xs, sp, u⟩]
      rw [show (⟨some x, xs, sp, u⟩ : OOState σ)
            = ⟨(x :: xs).head?, (x :: xs).tail, sp, u⟩ from rfl]
      rw [passModel_sim cb (visitSeq t path is_aot) (x :: xs) sp u]
      rcases hpass : passModel (x :: xs, sp) (visitSeq t path is_aot) with ⟨⟨S1, sp1⟩, es⟩
      simp only [hpass, foldCB_append]
      cases hp : foldCB cb es u with
      | error e1 =>
        simp [hp, Except.map, except_error_bind]
      | ok u1 =>
        simp only [hp, Except.map, except_ok_bind]
        have hih := ih S1 false u1
        rw [hih]
        cases hfold : foldCB cb (loopModel fuel (S1, false) (visitSeq t path is_aot)).2 u1 <;>
          simp [hfold, Except.map]

/-- Concatenation of the `visit_table` chunk blocks of a list of visits. -/
def blockChunks (e : Visit) : List String :=
  visitTableChunks e.1 e.2.1 e.2.2

/-- The rendered text block of one visit. -/
def blockStr (e : Visit) : String :=
  String.join (blockChunks e)

/-- Chunks contributed by a sequence of visits. -/
def blocksConcat : List Visit → List String
  | [] => []
  | e :: es => blockChunks e ++ blocksConcat es

theorem foldCB_collect {ε : Type} (L : List Visit) (ps : List Nat) :
    foldCB (ε := ε)
      (fun t _ _ (ps : List Nat) =>
        pure (match t.position with | some p => ps ++ [p] | none => ps)) L ps
      = Except.ok (ps ++ L.filterMap vpos) := by
  induction L generalizing ps with
  | nil => simp [foldCB, except_pure]
  | cons e L ih =>
    obtain ⟨t, p, b⟩ := e
    rw [foldCB, except_pure, except_ok_bind, List.filterMap]
    cases ht : t.position with
    | none => simp only [ht, vpos, ih]
    | some q => simp only [ht, vpos, ih, List.append_assoc, List.singleton_append]

theorem foldCB_chunks (es : List Visit) (u : List String) :
    foldCB (ε := Empty)
      (fun t p b (s : List String) => Except.ok (s ++ visitTableChunks t p b)) es u
      = Except.ok (u ++ blocksConcat es) := by
  induction es generalizing u with
  | nil => simp [foldCB, blocksConcat, except_pure]
  | cons e es ih =>
    obtain ⟨t, p, b⟩ := e
    rw [foldCB, except_ok_bind, blocksConcat, ih]
    simp [blockChunks, List.append_assoc]

/-- All positions found in the tree by the collection pass, in DFS order. -/
def collectedPositions (t : Table) : List Nat :=
  (visitSeq t [] false).filterMap vpos

/-- The sequence of visits emitted by the original-order algorithm. -/
def ooEmitSeq (t : Table) : List Visit :=
  (loopModel ((collectedPositions t).length + 1)
    (sortNat (collectedPositions t), true) (visitSeq t [] false)).2

theorem to_string_in_original_order_eq (d : Document) :
    d.to_string_in_original_order
      = String.join (blocksConcat (ooEmitSeq d.as_table)) ++ d.trailing := by
  rw [Document.to_string_in_original_order, visit_nested_tables_in_original_order,
    visit_eq_fold, foldCB_collect (visitSeq d.as_table [] false) []]
  simp only [except_map_ok, except_ok_bind, List.nil_append]
  rw [ooLoop_sim, foldCB_chunks]
  simp only [except_map_ok, except_ok_bind, except_pure, okOf]
  rw [ooEmitSeq, List.nil_append, collectedPositions]

theorem tableDisplayChunks_eq (t : Table) :
    tableDisplayChunks t = blocksConcat (visitSeq t [] false) := by
  rw [tableDisplayChunks, visit_eq_fold, foldCB_chunks, except_map_ok, okOf, List.nil_append]

theorem string_foldl_acc (xs : List String) (a : String) :
    xs.foldl (fun r s => r ++ s) a = a ++ xs.foldl (fun r s => r ++ s) "" := by
  induction xs generalizing a with
  | nil => simp [List.foldl]
  | cons x xs ih =>
    simp only [List.foldl]
    rw [ih (a ++ x), ih ("" ++ x), String.empty_append, String.append_assoc]

theorem string_join_append (xs ys : List String) :
    String.join (xs ++ ys) = String.join xs ++ String.join ys := by
  simp only [String.join, List.foldl_append]
  rw [string_foldl_acc ys (List.foldl (fun r s => r ++ s) "" xs)]

theorem toDisplayString_eq (d : Document) :
    d.toDisplayString
      = String.join (blocksConcat (visitSeq d.as_table [] false)) ++ d.trailing := by
  rw [Document.toDisplayString, documentChunks, tableDisplayChunks_eq, string_join_append]
  simp [String.join]

/-- Whether a visit has no original position. -/
def isNoneV (e : Visit) : Bool :=
  (vpos e).isNone

/-- Whether a visit's table carries position `q`. -/
def hasPos (q : Nat) (e : Visit) : Bool :=
  vpos e == some q

/-- The emission segment of a scheduled position `q`: the unique visit with
position `q` followed by the run of position-less visits directly after it
in the DFS order. -/
def segment (L : List Visit) (q : Nat) : List Visit :=
  match L.dropWhile (fun e => !hasPos q e) with
  | [] => []
  | e :: B => e :: B.takeWhile isNoneV

theorem insertNat_perm (x : Nat) (l : List Nat) : (insertNat x l).Perm (x :: l) := by
  induction l with
  | nil => simp [insertNat]
  | cons y ys ih =>
    rw [insertNat]
    split
    · exact List.Perm.refl _
    · exact (List.Perm.cons y ih).trans (List.Perm.swap x y ys)

theorem sortNat_perm (l : List Nat) : (sortNat l).Perm l := by
  induction l with
  | nil => exact List.Perm.refl _
  | cons x xs ih =>
    rw [sortNat]
    exact (insertNat_perm x (sortNat xs)).trans (List.Perm.cons x ih)

theorem dropWhile_suffix {α : Type} (p : α → Bool) (l : List α) : l.dropWhile p <:+ l := by
  induction l with
  | nil => exact List.suffix_refl _
  | cons a t ih =>
    rw [List.dropWhile]
    split
    · exact ih.trans (List.suffix_cons a t)
    · exact List.suffix_refl _

theorem dropWhile_head_false {α : Type} (p : α → Bool) (l : List α) :
    l.dropWhile p = [] ∨ ∃ e t, l.dropWhile p = e :: t ∧ p e = false := by
  induction l with
  | nil => exact Or.inl rfl
  | cons a t ih =>
    rw [List.dropWhile]
    split
    · exact ih
    · exact Or.inr ⟨a, t, rfl, by simp_all⟩

/-- Seeking: while the schedule head `q` has not been found, a pass step on
an entry without position `q` leaves the state unchanged and emits
nothing. -/
theorem pass_seek (S : List Nat) (q : Nat) (L0 : List Visit)
    (h : ∀ e ∈ L0, ¬ vpos e = some q) :
    passModel (q :: S, false) L0 = ((q :: S, false), []) := by
  induction L0 with
  | nil => rfl
  | cons e L0 ih =>
    rw [passModel]
    have hstep : stepSched (q :: S) false e = (q :: S, false) := by
      rw [stepSched]
      simp only [List.isEmpty_cons, Bool.false_and, Bool.false_eq_true, if_false, reduceIte]
      cases he : vpos e with
      | none => rfl
      | some r =>
        have : ¬ vpos e = some q := h e (List.mem_cons_self e L0)
        rw [he] at this
        simp only [List.head?_cons, he, this, if_false, reduceIte]
    rw [hstep, ih (fun e he => h e (List.mem_cons_of_mem _ he))]
    simp

/-- With an exhausted schedule and printing off, a pass is a no-op. -/
theorem pass_empty_sched (L0 : List Visit) :
    passModel (([] : List Nat), false) L0 = (([], false), []) := by
  induction L0 with
  | nil => rfl
  | cons e L0 ih =>
    rw [passModel]
    have hstep : stepSched [] false e = ([], false) := by rw [stepSched]; simp
    rw [hstep, ih]
    simp

/-- Emit mode: a run of position-less entries is emitted wholesale and
leaves the schedule state untouched. -/
theorem pass_nonerun (S : List Nat) (N : List Visit) (hN : ∀ e ∈ N, vpos e = none)
    (L0 : List Visit) :
    passModel (S, true) (N ++ L0)
      = ((passModel (S, true) L0).1, N ++ (passModel (S, true) L0).2) := by
  induction N with
  | nil => simp
  | cons e N ih =>
    rw [List.cons_append, passModel]
    have hstep : stepSched S true e = (S, true) := by
      rw [stepSched]
      simp only [Bool.not_true, Bool.and_false, Bool.false_eq_true, if_false, reduceIte]
      rw [hN e (List.mem_cons_self e N)]
    rw [hstep, ih (fun e he => hN e (List.mem_cons_of_mem _ he))]
    simp

/-- A matching step: the schedule head is found, consumed, and the entry is
emitted with `should_print` turned on. -/
theorem pass_match (S : List Nat) (q : Nat) (sp : Bool) (e : Visit) (B : List Visit)
    (he : vpos e = some q) :
    passModel (q :: S, sp) (e :: B)
      = ((passModel (S, true) B).1, e :: (passModel (S, true) B).2) := by
  rw [passModel]
  have hstep : stepSched (q :: S) sp e = (S, true) := by
    rw [stepSched]
    simp only [List.isEmpty_cons, Bool.false_and, Bool.false_eq_true, if_false, reduceIte]
    rw [he]
    simp
  rw [hstep]
  simp

/-- When the next entry is positioned (or the list is over), the incoming
`should_print` flag is irrelevant to the schedule result and emissions. -/
theorem pass_sp_irrel (S : List Nat) (L0 : List Visit)
    (h : L0 = [] ∨ ∃ e t, L0 = e :: t ∧ (vpos e).isSome) :
    (passModel (S, true) L0).1.1 = (passModel (S, false) L0).1.1
      ∧ (passModel (S, true) L0).2 = (passModel (S, false) L0).2 := by
  rcases h with h | ⟨e, t, rfl, he⟩
  · subst h; exact ⟨rfl, rfl⟩
  · rcases hq : vpos e with _ | q
    · rw [hq] at he; simp at he
    · cases S with
      | nil =>
        rw [passModel, passModel]
        have h1 : stepSched [] true e = ([], false) := by
          rw [stepSched]
          simp only [List.isEmpty_nil, Bool.not_true, Bool.and_false, Bool.false_eq_true,
            if_false, reduceIte, hq, List.head?_nil]
          simp
        have h2 : stepSched [] false e = ([], false) := by rw [stepSched]; simp
        rw [h1, h2]
        exact ⟨rfl, rfl⟩
      | cons x xs =>
        rw [passModel, passModel]
        have : stepSched (x :: xs) true e = stepSched (x :: xs) false e := by
          rw [stepSched, stepSched]
          simp only [List.isEmpty_cons, Bool.false_and, Bool.false_eq_true, if_false,
            reduceIte, hq]
        rw [this]
        exact ⟨rfl, rfl⟩

theorem dropWhile_append_all_true {α : Type} (p : α → Bool) (A l : List α)
    (hA : ∀ a ∈ A, p a = true) :
    (A ++ l).dropWhile p = l.dropWhile p := by
  induction A with
  | nil => rfl
  | cons a A ih =>
    rw [List.cons_append, List.dropWhile, hA a (List.mem_cons_self a A)]
    exact ih (fun a ha => hA a (List.mem_cons_of_mem _ ha))

theorem countP_hasPos_one {L : List Visit} {q : Nat} {A B : List Visit} {e : Visit}
    (HU : L.countP (hasPos q) ≤ 1) (hL : L = A ++ e :: B) (he : vpos e = some q) :
    (∀ a ∈ A, ¬ vpos a = some q) ∧ (∀ b ∈ B, ¬ vpos b = some q) := by
  subst hL
  rw [List.countP_append, List.countP_cons] at HU
  have hpe : hasPos q e = true := by rw [hasPos, he]; simp
  rw [hpe] at HU
  simp only [if_true, reduceIte] at HU
  have hA : A.countP (hasPos q) = 0 := by omega
  have hB : B.countP (hasPos q) = 0 := by omega
  constructor
  · intro a ha hqa
    have := List.countP_eq_zero.mp hA a ha
    rw [hasPos, hqa] at this
    simp at this
  · intro b hb hqb
    have := List.countP_eq_zero.mp hB b hb
    rw [hasPos, hqb] at this
    simp at this

/-- Splitting a suffix of the DFS list at the unique entry carrying the
scheduled position `q`: the part before it is `q`-free and the entry opens
exactly `segment L q`. -/
theorem split_of_mem_suffix {L : List Visit} (q : Nat)
    (HU : L.countP (hasPos q) ≤ 1) (L0 : List Visit) (hsuf : L0 <:+ L)
    (hx : ∃ x ∈ L0, vpos x = some q) :
    ∃ A e B, L0 = A ++ e :: B ∧ vpos e = some q ∧ (∀ a ∈ A, ¬ vpos a = some q)
      ∧ segment L q = e :: B.takeWhile isNoneV := by
  obtain ⟨x, hxm, hxq⟩ := hx
  obtain ⟨A, B, rfl⟩ := List.append_of_mem hxm
  obtain ⟨P, hP⟩ := hsuf
  have hL : L = (P ++ A) ++ x :: B := by rw [← hP]; simp
  obtain ⟨hPA, hB⟩ := countP_hasPos_one HU hL hxq
  refine ⟨A, x, B, rfl, hxq, ?_, ?_⟩
  · intro a ha
    exact hPA a (by simp [ha])
  · rw [segment, hL]
    rw [dropWhile_append_all_true _ (P ++ A) (x :: B) ?hall]
    case hall =>
      intro a ha
      have hnot := hPA a ha
      rw [hasPos]
      simp only [Bool.not_eq_true', beq_eq_false_iff_ne, ne_eq]
      exact hnot
    rw [List.dropWhile]
    have : hasPos q x = true := by rw [hasPos, hxq]; simp
    rw [this]
    simp

/-- A pass starting in seek mode on a schedule `q :: S'`, over a stretch
whose first `q`-entry splits it as `A ++ e :: B`: the pass emits
`e` and its trailing none-run, then behaves like a seek-mode pass on the
rest of the schedule from after that run. -/
theorem pass_split (S' : List Nat) (q : Nat) (A : List Visit) (e : Visit) (B : List Visit)
    (hA : ∀ a ∈ A, ¬ vpos a = some q) (he : vpos e = some q) :
    (passModel (q :: S', false) (A ++ e :: B)).1.1
        = (passModel (S', false) (B.dropWhile isNoneV)).1.1
      ∧ (passModel (q :: S', false) (A ++ e :: B)).2
        = (e :: B.takeWhile isNoneV) ++ (passModel (S', false) (B.dropWhile isNoneV)).2 := by
  induction A with
  | nil =>
    rw [List.nil_append, pass_match S' q false e B he]
    have hsplit : B.takeWhile isNoneV ++ B.dropWhile isNoneV = B :=
      List.takeWhile_append_dropWhile (p := isNoneV) (l := B)
    have hrun := pass_nonerun S' (B.takeWhile isNoneV) ?hN (B.dropWhile isNoneV)
    case hN =>
      intro x hxm
      have := List.mem_takeWhile_imp hxm
      rw [isNoneV] at this
      exact Option.isNone_iff_eq_none.mp this
    rw [hsplit] at hrun
    have hirr := pass_sp_irrel S' (B.dropWhile isNoneV) ?hhead
    case hhead =>
      rcases dropWhile_head_false isNoneV B with h | ⟨e1, t1, heq, hfalse⟩
      · exact Or.inl h
      · refine Or.inr ⟨e1, t1, heq, ?_⟩
        rw [isNoneV] at hfalse
        cases hv : vpos e1 with
        | none => rw [hv] at hfalse; simp at hfalse
        | some r => simp
    rw [hrun]
    refine ⟨by rw [hirr.1], ?_⟩
    simp only [List.cons_append]
    rw [hirr.2]
  | cons a A ih =>
    have hstep : stepSched (q :: S') false a = (q :: S', false) := by
      rw [stepSched]
      simp only [List.isEmpty_cons, Bool.false_and, Bool.false_eq_true, if_false, reduceIte]
      cases hv : vpos a with
      | none => rfl
      | some r =>
        have := hA a (List.mem_cons_self a A)
        rw [hv] at this
        simp only [List.head?_cons]
        rw [if_neg (by simpa using this)]
    have ih1 := ih (fun a ha => hA a (List.mem_cons_of_mem _ ha))
    rw [List.cons_append, passModel, hstep]
    simpa using ih1

theorem loopModel_empty (L : List Visit) (fuel : Nat) :
    loopModel fuel (([] : List Nat), false) L = (([], false), []) := by
  cases fuel with
  | zero => rfl
  | succ fuel => rw [loopModel]; simp

/-- The engine of the original-order algorithm: starting a pass in seek
mode on any suffix of the DFS list and then looping, the schedule is worked
off segment by segment, in schedule order, and is exhausted at the end. -/
theorem loop_G (L : List Visit) (HU : ∀ q, L.countP (hasPos q) ≤ 1) :
    ∀ (S : List Nat), (∀ p ∈ S, ∃ x ∈ L, vpos x = some p) →
    ∀ (L0 : List Visit), L0 <:+ L → ∀ (fuel : Nat), S.length ≤ fuel →
      ((passModel (S, false) L0).2
        ++ (loopModel fuel ((passModel (S, false) L0).1.1, false) L).2
          = (S.map (segment L)).flatten)
      ∧ (loopModel fuel ((passModel (S, false) L0).1.1, false) L).1 = ([], false) := by
  intro S
  induction S with
  | nil =>
    intro _ L0 _ fuel _
    rw [pass_empty_sched, loopModel_empty]
    exact ⟨rfl, rfl⟩
  | cons q S' ih =>
    intro hmem L0 hsuf fuel hfuel
    by_cases hx : ∃ x ∈ L0, vpos x = some q
    · obtain ⟨A, e, B, rfl, he, hA, hseg⟩ :=
        split_of_mem_suffix q (HU q) L0 hsuf hx
      obtain ⟨h1, h2⟩ := pass_split S' q A e B hA he
      have hsufB : B.dropWhile isNoneV <:+ L :=
        ((dropWhile_suffix isNoneV B).trans
          ((List.suffix_cons e B).trans
            ((List.suffix_append A (e :: B)).trans hsuf)))
      have hih := ih (fun p hp => hmem p (List.mem_cons_of_mem _ hp))
        (B.dropWhile isNoneV) hsufB fuel (by simpa using Nat.le_of_succ_le hfuel)
      rw [h1, h2]
      refine ⟨?_, hih.2⟩
      rw [List.map_cons, List.flatten_cons, ← hseg, List.append_assoc, hih.1]
    · push_neg at hx
      rw [pass_seek S' q L0 hx]
      cases fuel with
      | zero => simp at hfuel
      | succ f =>
        simp only [List.nil_append]
        rw [loopModel]
        simp only [List.isEmpty_cons, Bool.false_eq_true, if_false, reduceIte]
        obtain ⟨A, e, B, hLsplit, he, hA, hseg⟩ :=
          split_of_mem_suffix q (HU q) L (List.suffix_refl L)
            (hmem q (List.mem_cons_self q S'))
        obtain ⟨h1, h2⟩ := pass_split S' q A e B hA he
        rw [← hLsplit] at h1 h2
        have hsufB : B.dropWhile isNoneV <:+ L := by
          rw [hLsplit]
          exact ((dropWhile_suffix isNoneV B).trans
            ((List.suffix_cons e B).trans (List.suffix_append A (e :: B))))
        have hih := ih (fun p hp => hmem p (List.mem_cons_of_mem _ hp))
          (B.dropWhile isNoneV) hsufB f
            (by rw [List.length_cons] at hfuel; omega)
        rw [h1, h2]
        refine ⟨?_, hih.2⟩
        rw [List.map_cons, List.flatten_cons, ← hseg, List.append_assoc, hih.1]

/-- Full characterization of the original-order loop: with a non-empty
schedule whose positions all occur (uniquely) in the DFS list, the loop
emits the leading run of position-less visits, then the segments of the
scheduled positions in schedule order, and exhausts the schedule. -/
theorem loopModel_char (L : List Visit) (HU : ∀ q, L.countP (hasPos q) ≤ 1)
    (S : List Nat) (hmem : ∀ p ∈ S, ∃ x ∈ L, vpos x = some p)
    (hS : S ≠ []) (fuel : Nat) (hfuel : S.length + 1 ≤ fuel) :
    (loopModel fuel (S, true) L).2
        = L.takeWhile isNoneV ++ (S.map (segment L)).flatten
      ∧ (loopModel fuel (S, true) L).1 = ([], false) := by
  cases fuel with
  | zero => simp at hfuel
  | succ f =>
    cases S with
    | nil => exact absurd rfl hS
    | cons q S' =>
      rw [loopModel]
      simp only [List.isEmpty_cons, Bool.false_eq_true, if_false, reduceIte]
      have hsplitL : L.takeWhile isNoneV ++ L.dropWhile isNoneV = L :=
        List.takeWhile_append_dropWhile (p := isNoneV) (l := L)
      have hN : ∀ e ∈ L.takeWhile isNoneV, vpos e = none := by
        intro x hxm
        have := List.mem_takeWhile_imp hxm
        rw [isNoneV] at this
        exact Option.isNone_iff_eq_none.mp this
      have hrun := pass_nonerun (q :: S') (L.takeWhile isNoneV) hN (L.dropWhile isNoneV)
      rw [hsplitL] at hrun
      have hirr := pass_sp_irrel (q :: S') (L.dropWhile isNoneV) ?hhead
      case hhead =>
        rcases dropWhile_head_false isNoneV L with h | ⟨e1, t1, heq, hfalse⟩
        · exact Or.inl h
        · refine Or.inr ⟨e1, t1, heq, ?_⟩
          rw [isNoneV] at hfalse
          cases hv : vpos e1 with
          | none => rw [hv] at hfalse; simp at hfalse
          | some r => simp
      have hG := loop_G L HU (q :: S') hmem (L.dropWhile isNoneV)
        (dropWhile_suffix isNoneV L) f (by rw [List.length_cons] at hfuel ⊢; omega)
      rw [hrun]
      constructor
      · simp only [hirr.1, hirr.2, List.append_assoc]
        rw [hG.1]
      · simp only [hirr.1]
        exact hG.2

theorem countP_hasPos_eq_count (L : List Visit) (q : Nat) :
    L.countP (hasPos q) = (L.filterMap vpos).count q := by
  induction L with
  | nil => rfl
  | cons e L ih =>
    rw [List.countP_cons, List.filterMap]
    cases hv : vpos e with
    | none =>
      rw [hasPos, hv]
      simp [ih]
    | some r =>
      rw [hasPos, hv]
      by_cases hr : r = q
      · subst hr
        simp [List.count_cons, ih]
      · have h1 : ((some r : Option Nat) == some q) = false := by simp [hr]
        have h2 : (r == q) = false := by simp [hr]
        simp only [List.count_cons, ih, h1, h2]
        try simp

theorem segment_of_split (L : List Visit) (q : Nat) (HU : L.countP (hasPos q) ≤ 1)
    (P B : List Visit) (e : Visit) (he : vpos e = some q) (hL : L = P ++ e :: B) :
    segment L q = e :: B.takeWhile isNoneV := by
  obtain ⟨hP, _⟩ := countP_hasPos_one HU hL he
  rw [segment, hL]
  rw [dropWhile_append_all_true _ P (e :: B) ?hall]
  case hall =>
    intro a ha
    have hnot := hP a ha
    rw [hasPos]
    simp only [Bool.not_eq_true', beq_eq_false_iff_ne, ne_eq]
    exact hnot
  rw [List.dropWhile]
  have : hasPos q e = true := by rw [hasPos, he]; simp
  rw [this]
  simp

theorem filterMap_vpos_takeWhile (B : List Visit) :
    (B.takeWhile isNoneV).filterMap vpos = [] := by
  rw [List.filterMap_eq_nil_iff]
  intro a ha
  have := List.mem_takeWhile_imp ha
  rw [isNoneV] at this
  exact Option.isNone_iff_eq_none.mp this

theorem dropWhile_isNoneV_head (B : List Visit) :
    B.dropWhile isNoneV = [] ∨ ∃ e t, B.dropWhile isNoneV = e :: t ∧ (vpos e).isSome := by
  rcases dropWhile_head_false isNoneV B with h | ⟨e1, t1, heq, hfalse⟩
  · exact Or.inl h
  · refine Or.inr ⟨e1, t1, heq, ?_⟩
    rw [isNoneV] at hfalse
    cases hv : vpos e1 with
    | none => rw [hv] at hfalse; simp at hfalse
    | some r => simp

/-- A suffix of the DFS list that starts with a positioned visit (or is
empty) is exactly the concatenation of the segments of its positions, in
DFS order. -/
theorem decomp_suffix (L : List Visit) (HU : ∀ q, L.countP (hasPos q) ≤ 1) :
    ∀ (n : Nat) (D : List Visit), D.length ≤ n → D <:+ L →
      (D = [] ∨ ∃ e t, D = e :: t ∧ (vpos e).isSome) →
      D = ((D.filterMap vpos).map (segment L)).flatten := by
  intro n
  induction n with
  | zero =>
    intro D hlen _ _
    have : D = [] := List.length_eq_zero.mp (Nat.le_zero.mp hlen)
    subst this
    rfl
  | succ n ih =>
    intro D hlen hsuf hhead
    rcases hhead with rfl | ⟨e, B, rfl, hpos⟩
    · rfl
    · rcases hq : vpos e with _ | q
      · rw [hq] at hpos; simp at hpos
      · obtain ⟨P, hP⟩ := hsuf
        have hseg := segment_of_split L q (HU q) P B e hq hP.symm
        have hsufB : B.dropWhile isNoneV <:+ L :=
          (dropWhile_suffix isNoneV B).trans ((List.suffix_cons e B).trans ⟨P, hP⟩)
        have hih := ih (B.dropWhile isNoneV)
          (by
            have h1 : (B.dropWhile isNoneV).length ≤ B.length :=
              (List.dropWhile_sublist isNoneV).length_le
            rw [List.length_cons] at hlen
            omega)
          hsufB (dropWhile_isNoneV_head B)
        have hfmB : B.filterMap vpos = (B.dropWhile isNoneV).filterMap vpos := by
          conv_lhs => rw [← List.takeWhile_append_dropWhile (p := isNoneV) (l := B)]
          rw [List.filterMap_append, filterMap_vpos_takeWhile, List.nil_append]
        simp only [List.filterMap_cons, hq, List.map_cons, List.flatten_cons, hseg]
        rw [hfmB, ← hih, List.cons_append,
          List.takeWhile_append_dropWhile (p := isNoneV) (l := B)]

/-- The whole DFS list splits into the leading none-run followed by every
position's segment, in DFS order. -/
theorem L_decomp (L : List Visit) (HU : ∀ q, L.countP (hasPos q) ≤ 1) :
    L = L.takeWhile isNoneV ++ ((L.filterMap vpos).map (segment L)).flatten := by
  have hfmL : L.filterMap vpos = (L.dropWhile isNoneV).filterMap vpos := by
    conv_lhs => rw [← List.takeWhile_append_dropWhile (p := isNoneV) (l := L)]
    rw [List.filterMap_append, filterMap_vpos_takeWhile, List.nil_append]
  rw [hfmL,
    ← decomp_suffix L HU (L.dropWhile isNoneV).length (L.dropWhile isNoneV) le_rfl
      (dropWhile_suffix isNoneV L) (dropWhile_isNoneV_head L),
    List.takeWhile_append_dropWhile]

theorem HU_of_nodup (L : List Visit) (h : (L.filterMap vpos).Nodup) :
    ∀ q, L.countP (hasPos q) ≤ 1 := by
  intro q
  rw [countP_hasPos_eq_count]
  exact List.nodup_iff_count_le_one.mp h q

theorem collectedPositions_eq (t : Table) :
    collectedPositions t = (visitSeq t [] false).filterMap vpos := rfl

/-- Characterization of the emitted visit sequence: leading none-run, then
one segment per scheduled position, in ascending schedule order. -/
theorem ooEmitSeq_char (t : Table) (hnodup : (collectedPositions t).Nodup)
    (hne : collectedPositions t ≠ []) :
    ooEmitSeq t
      = (visitSeq t [] false).takeWhile isNoneV
        ++ ((sortNat (collectedPositions t)).map (segment (visitSeq t [] false))).flatten := by
  rw [ooEmitSeq]
  refine (loopModel_char (visitSeq t [] false) (HU_of_nodup _ hnodup)
    (sortNat (collectedPositions t)) ?hmem ?hne ((collectedPositions t).length + 1) ?hfuel).1
  case hmem =>
    intro p hp
    have hp2 : p ∈ collectedPositions t := (sortNat_perm _).mem_iff.mp hp
    rw [collectedPositions_eq] at hp2
    obtain ⟨x, hx, hxp⟩ := List.mem_filterMap.mp hp2
    exact ⟨x, hx, hxp⟩
  case hne =>
    intro h
    exact hne (List.length_eq_zero.mp (by rw [← (sortNat_perm (collectedPositions t)).length_eq, h]; rfl))
  case hfuel =>
    rw [(sortNat_perm (collectedPositions t)).length_eq]

/-- The emitted visits are a permutation of the plain DFS visits. -/
theorem ooEmitSeq_perm (t : Table) (hnodup : (collectedPositions t).Nodup)
    (hne : collectedPositions t ≠ []) :
    (ooEmitSeq t).Perm (visitSeq t [] false) := by
  rw [ooEmitSeq_char t hnodup hne]
  conv_rhs => rw [L_decomp (visitSeq t [] false) (HU_of_nodup _ hnodup)]
  refine List.Perm.append_left _ ?_
  refine List.Perm.flatten ?_
  refine List.Perm.map _ ?_
  exact sortNat_perm _

/-- The emitted visit sequence, observed through the source traversal with
a collecting callback. -/
def ooVisits (t : Table) : List Visit :=
  (okOf (visit_nested_tables_in_original_order
    (fun t p b (s : List Visit) => (Except.ok (s ++ [(t, p, b)]) : Except Empty _))
    t false [] [])).2

/-- The plain DFS visit sequence, observed through the source traversal
with a collecting callback. -/
def plainVisits (t : Table) : List Visit :=
  (okOf (visit_nested_tables
    (fun t p b (s : List Visit) => (Except.ok (s ++ [(t, p, b)]) : Except Empty _))
    t false [] [])).2

theorem foldCB_visits (es : List Visit) (u : List Visit) :
    foldCB (ε := Empty)
      (fun t p b (s : List Visit) => Except.ok (s ++ [(t, p, b)])) es u
      = Except.ok (u ++ es) := by
  induction es generalizing u with
  | nil => simp [foldCB, except_pure]
  | cons e es ih =>
    obtain ⟨t, p, b⟩ := e
    rw [foldCB, except_ok_bind, ih]
    simp

theorem plainVisits_eq (t : Table) : plainVisits t = visitSeq t [] false := by
  rw [plainVisits, visit_eq_fold, foldCB_visits, except_map_ok, okOf, List.nil_append]

theorem ooVisits_eq (t : Table) : ooVisits t = ooEmitSeq t := by
  rw [ooVisits, visit_nested_tables_in_original_order, visit_eq_fold,
    foldCB_collect (visitSeq t [] false) []]
  simp only [except_map_ok, except_ok_bind, List.nil_append]
  rw [ooLoop_sim, foldCB_visits]
  simp only [except_map_ok, except_ok_bind, except_pure, okOf]
  rw [ooEmitSeq, List.nil_append, collectedPositions]

theorem loopModel_any_fuel_empty (L : List Visit) (sp : Bool) (fuel : Nat) :
    loopModel fuel (([] : List Nat), sp) L = (([], sp), []) := by
  cases fuel with
  | zero => rfl
  | succ f => rw [loopModel]; simp

/-- Fuel indifference: any fuel of at least `|schedule| + 1` passes gives
the same loop result (the loop has terminated by then). -/
theorem loopModel_fuel_indep (L : List Visit) (HU : ∀ q, L.countP (hasPos q) ≤ 1)
    (S : List Nat) (hmem : ∀ p ∈ S, ∃ x ∈ L, vpos x = some p)
    (fuel1 fuel2 : Nat) (h1 : S.length + 1 ≤ fuel1) (h2 : S.length + 1 ≤ fuel2) :
    loopModel fuel1 (S, true) L = loopModel fuel2 (S, true) L := by
  by_cases hS : S = []
  · subst hS
    rw [loopModel_any_fuel_empty, loopModel_any_fuel_empty]
  · have c1 := loopModel_char L HU S hmem hS fuel1 h1
    have c2 := loopModel_char L HU S hmem hS fuel2 h2
    have e1 : loopModel fuel1 (S, true) L
        = (((loopModel fuel1 (S, true) L).1), (loopModel fuel1 (S, true) L).2) := rfl
    have e2 : loopModel fuel2 (S, true) L
        = (((loopModel fuel2 (S, true) L).1), (loopModel fuel2 (S, true) L).2) := rfl
    rw [e1, e2, c1.1, c1.2, c2.1, c2.2]

/-- A fallible write sink: write attempt number `n` succeeds iff `ok n`.
The threaded state is the list of attempted write chunks; a failed write is
recorded and reported in the error, so the attempt log shows exactly where
the render stopped. -/
structure Sink where
  ok : Nat → Bool

/-- Write a list of chunks one `write!` at a time into a sink, aborting on
the first failed attempt (the `?` operator of the source). -/
def emitChunks (sk : Sink) : List String → List String → Except (List String) (List String)
  | [], w => Except.ok w
  | c :: cs, w =>
    if sk.ok w.length then emitChunks sk cs (w ++ [c]) else Except.error (w ++ [c])

/-- `impl Display for Document` against a fallible formatter: the DFS with
the `visit_table` writes, then the trailing text. -/
def documentSinkRender (sk : Sink) (d : Document) (w : List String) :
    Except (List String) (List String) := do
  let (_, w) ← visit_nested_tables
    (fun t p b w => emitChunks sk (visitTableChunks t p b) w) d.as_table false [] w
  emitChunks sk [d.trailing] w

/-- The original-order render against a fallible sink: the source traversal
`visit_nested_tables_in_original_order` with the `visit_table` writes, then
the trailing text. -/
def ooSinkRender (sk : Sink) (d : Document) (w : List String) :
    Except (List String) (List String) := do
  let (_, w) ← visit_nested_tables_in_original_order
    (fun t p b w => emitChunks sk (visitTableChunks t p b) w) d.as_table false [] w
  emitChunks sk [d.trailing] w

/-- The write-chunk stream of the original-order render. -/
def ooChunks (d : Document) : List String :=
  blocksConcat (ooEmitSeq d.as_table) ++ [d.trailing]

theorem emitChunks_append (sk : Sink) (cs1 cs2 w : List String) :
    emitChunks sk (cs1 ++ cs2) w = emitChunks sk cs1 w >>= emitChunks sk cs2 := by
  induction cs1 generalizing w with
  | nil => rw [List.nil_append, emitChunks, except_ok_bind]
  | cons c cs ih =>
    rw [List.cons_append, emitChunks, emitChunks]
    split
    · exact ih (w ++ [c])
    · rw [except_error_bind]

theorem foldCB_emit (sk : Sink) (es : List Visit) (w : List String) :
    foldCB (fun t p b w => emitChunks sk (visitTableChunks t p b) w) es w
      = emitChunks sk (blocksConcat es) w := by
  induction es generalizing w with
  | nil => rfl
  | cons e es ih =>
    obtain ⟨t, p, b⟩ := e
    rw [foldCB, blocksConcat, emitChunks_append]
    cases hc : emitChunks sk (blockChunks (t, p, b)) w with
    | error e1 => rw [show blockChunks (t, p, b) = visitTableChunks t p b from rfl] at hc
                  rw [hc, except_error_bind, except_error_bind]
    | ok w1 => rw [show blockChunks (t, p, b) = visitTableChunks t p b from rfl] at hc
               rw [hc, except_ok_bind, except_ok_bind, ih]

theorem documentSinkRender_eq (sk : Sink) (d : Document) (w : List String) :
    documentSinkRender sk d w = emitChunks sk (documentChunks d) w := by
  rw [documentSinkRender, visit_eq_fold, foldCB_emit, documentChunks, tableDisplayChunks_eq,
    emitChunks_append]
  cases hc : emitChunks sk (blocksConcat (visitSeq d.as_table [] false)) w with
  | error e1 => simp [Except.map, except_error_bind]
  | ok w1 => simp [Except.map, except_ok_bind]

theorem ooSinkRender_eq (sk : Sink) (d : Document) (w : List String) :
    ooSinkRender sk d w = emitChunks sk (ooChunks d) w := by
  rw [ooSinkRender, visit_nested_tables_in_original_order, visit_eq_fold,
    foldCB_collect (visitSeq d.as_table [] false) []]
  simp only [except_map_ok, except_ok_bind, List.nil_append]
  rw [ooLoop_sim, foldCB_emit]
  rw [ooChunks, emitChunks_append]
  rw [show (loopModel ((List.filterMap vpos (visitSeq d.as_table [] false)).length + 1)
        (sortNat (List.filterMap vpos (visitSeq d.as_table [] false)), true)
        (visitSeq d.as_table [] false)).2 = ooEmitSeq d.as_table from rfl]
  cases hc : emitChunks sk (blocksConcat (ooEmitSeq d.as_table)) w with
  | error e1 => simp [Except.map, except_error_bind, except_pure]
  | ok w1 => simp [Except.map, except_ok_bind, except_pure]

theorem emitChunks_all_ok (sk : Sink) (cs : List String) :
    ∀ (w : List String), (∀ i, i < cs.length → sk.ok (w.length + i) = true) →
      emitChunks sk cs w = Except.ok (w ++ cs) := by
  induction cs with
  | nil => intro w _; rw [emitChunks, List.append_nil]
  | cons c cs ih =>
    intro w h
    rw [emitChunks]
    have h0 : sk.ok w.length = true := by simpa using h 0 (by simp)
    rw [h0]
    simp only [if_true, reduceIte]
    rw [ih (w ++ [c]) ?hrest]
    case hrest =>
      intro i hi
      have := h (i + 1) (by simpa using Nat.succ_lt_succ hi)
      simpa [Nat.add_assoc, Nat.add_comm 1 i] using this
    simp

theorem emitChunks_fail (sk : Sink) (cs : List String) :
    ∀ (w : List String) (k : Nat), k < cs.length → sk.ok (w.length + k) = false →
      (∀ j, j < k → sk.ok (w.length + j) = true) →
      emitChunks sk cs w = Except.error (w ++ cs.take (k + 1)) := by
  induction cs with
  | nil => intro w k hk _ _; simp at hk
  | cons c cs ih =>
    intro w k hk hfail hok
    rw [emitChunks]
    cases k with
    | zero =>
      simp only [Nat.add_zero] at hfail
      rw [hfail]
      simp
    | succ k =>
      have h0 : sk.ok w.length = true := by simpa using hok 0 (Nat.succ_pos k)
      rw [h0]
      simp only [if_true, reduceIte]
      rw [ih (w ++ [c]) k (by simpa using Nat.lt_of_succ_lt_succ hk)
        (by simpa [Nat.add_assoc, Nat.add_comm 1 k] using hfail)
        (fun j hj => by
          have := hok (j + 1) (Nat.succ_lt_succ hj)
          simpa [Nat.add_assoc, Nat.add_comm 1 j] using this)]
      simp

/-- Reachability of a table from another along item keys: `Reach t b rel
b1 s1` says the DFS starting at `t` (visited with flag `b`) reaches table
`s1` with relative key path `rel` and array-of-tables flag `b1`. -/
inductive Reach : Table → Bool → List String → Bool → Table → Prop where
  | refl (t : Table) (b : Bool) : Reach t b [] b t
  | table {t : Table} (b : Bool) (kv : TableKeyValue) (t1 : Table)
      {rel : List String} {b1 : Bool} {s1 : Table} :
      kv ∈ t.items → kv.value = Item.Table t1 → Reach t1 false rel b1 s1 →
      Reach t b (kv.key.raw_value :: rel) b1 s1
  | aot {t : Table} (b : Bool) (kv : TableKeyValue) (ts : List Table) (t0 : Table)
      {rel : List String} {b1 : Bool} {s1 : Table} :
      kv ∈ t.items → kv.value = Item.ArrayOfTables ts → t0 ∈ ts →
      Reach t0 true rel b1 s1 → Reach t b (kv.key.raw_value :: rel) b1 s1

mutual

/-- Every visit record of the DFS carries as its path the starting path
extended by the key sequence from the start table to the visited table. -/
theorem reach_visitSeq : ∀ (t : Table) (path : List String) (b : Bool) (e : Visit),
    e ∈ visitSeq t path b → ∃ rel, e.2.1 = path ++ rel ∧ Reach t b rel e.2.2 e.1
  | .mk de im po items, path, b, e, he => by
    rw [visitSeq] at he
    rcases List.mem_cons.mp he with rfl | hmem
    · exact ⟨[], by simp, Reach.refl _ b⟩
    · exact reach_seqItems (.mk de im po items) b items (fun kv h => h) path e hmem

theorem reach_seqItems : ∀ (t0 : Table) (b0 : Bool) (items : List TableKeyValue),
    (∀ kv ∈ items, kv ∈ t0.items) → ∀ (path : List String) (e : Visit),
    e ∈ seqItems items path → ∃ rel, e.2.1 = path ++ rel ∧ Reach t0 b0 rel e.2.2 e.1
  | t0, b0, [], hsub, path, e, he => by rw [seqItems] at he; exact absurd he (List.not_mem_nil e)
  | t0, b0, ⟨key, .Table t1⟩ :: rest, hsub, path, e, he => by
    rw [seqItems] at he
    rcases List.mem_append.mp he with h1 | h2
    · obtain ⟨rel, hpath, hreach⟩ := reach_visitSeq t1 (path ++ [key.raw_value]) false e h1
      refine ⟨key.raw_value :: rel, by rw [hpath]; simp, ?_⟩
      exact Reach.table b0 ⟨key, .Table t1⟩ t1
        (hsub _ (List.mem_cons_self _ _)) rfl hreach
    · exact reach_seqItems t0 b0 rest (fun kv h => hsub kv (List.mem_cons_of_mem _ h)) path e h2
  | t0, b0, ⟨key, .ArrayOfTables ts⟩ :: rest, hsub, path, e, he => by
    rw [seqItems] at he
    rcases List.mem_append.mp he with h1 | h2
    · exact reach_seqAot t0 b0 ⟨key, .ArrayOfTables ts⟩
        (hsub _ (List.mem_cons_self _ _)) ts rfl ts (fun x h => h) path e h1
    · exact reach_seqItems t0 b0 rest (fun kv h => hsub kv (List.mem_cons_of_mem _ h)) path e h2
  | t0, b0, ⟨key, .None⟩ :: rest, hsub, path, e, he => by
    rw [seqItems] at he
    exact reach_seqItems t0 b0 rest (fun kv h => hsub kv (List.mem_cons_of_mem _ h)) path e he
  | t0, b0, ⟨key, .Value v⟩ :: rest, hsub, path, e, he => by
    rw [seqItems] at he
    exact reach_seqItems t0 b0 rest (fun kv h => hsub kv (List.mem_cons_of_mem _ h)) path e he

theorem reach_seqAot : ∀ (t0 : Table) (b0 : Bool) (kv : TableKeyValue),
    kv ∈ t0.items → ∀ (ts : List Table), kv.value = Item.ArrayOfTables ts →
    ∀ (ts1 : List Table), (∀ x ∈ ts1, x ∈ ts) → ∀ (path : List String) (e : Visit),
    e ∈ seqAot kv.key.raw_value ts1 path →
    ∃ rel, e.2.1 = path ++ rel ∧ Reach t0 b0 rel e.2.2 e.1
  | t0, b0, kv, hkv, ts, hts, [], hsub, path, e, he => by
    rw [seqAot] at he; exact absurd he (List.not_mem_nil e)
  | t0, b0, kv, hkv, ts, hts, t1 :: ts1, hsub, path, e, he => by
    rw [seqAot] at he
    rcases List.mem_append.mp he with h1 | h2
    · obtain ⟨rel, hpath, hreach⟩ :=
        reach_visitSeq t1 (path ++ [kv.key.raw_value]) true e h1
      refine ⟨kv.key.raw_value :: rel, by rw [hpath]; simp, ?_⟩
      exact Reach.aot b0 kv ts t1 hkv hts (hsub _ (List.mem_cons_self _ _)) hreach
    · exact reach_seqAot t0 b0 kv hkv ts hts ts1
        (fun x h => hsub x (List.mem_cons_of_mem _ h)) path e h2

end

/-- A successful traversal hands the path stack back unchanged. -/
theorem visit_restores_path {σ ε : Type} (cb : Table → List String → Bool → σ → Except ε σ)
    (t : Table) (b : Bool) (path : List String) (s : σ) (p2 : List String) (s2 : σ)
    (h : visit_nested_tables cb t b path s = Except.ok (p2, s2)) : p2 = path := by
  rw [visit_eq_fold] at h
  cases hf : foldCB cb (visitSeq t path b) s with
  | ok s3 =>
    rw [hf, except_map_ok] at h
    exact (Prod.mk.injEq _ _ _ _ ▸ (Except.ok.injEq _ _ ▸ h)).1.symm
  | error e1 => rw [hf, except_map_error] at h; exact absurd h (by simp)

/-- Comma-separated concatenation of chunk groups: the head group, then
one `","` chunk before each following group (so n groups get exactly n − 1
separators). -/
def sepJoin : List (List String) → List String
  | [] => []
  | c :: cs => c ++ (cs.map (fun x => "," :: x)).flatten

theorem joinValueChunks_pos (vs : List Value) (i : Nat) :
    joinValueChunks (i + 1) vs = (vs.map (fun v => "," :: valueChunks v)).flatten := by
  induction vs generalizing i with
  | nil => rfl
  | cons v vs ih =>
    rw [joinValueChunks, if_pos (Nat.succ_pos i), List.map_cons, List.flatten_cons, ih (i + 1)]
    simp

theorem joinValueChunks_zero (vs : List Value) :
    joinValueChunks 0 vs = sepJoin (vs.map valueChunks) := by
  cases vs with
  | nil => rfl
  | cons v vs =>
    rw [joinValueChunks, if_neg (by omega), joinValueChunks_pos vs 0]
    simp [sepJoin, List.map_map, Function.comp_def]

/-- The `key=value` chunks of one inline-table entry holding a plain
value. -/
def pairChunks (kv : TableKeyValue) : List String :=
  match kv.value with
  | .Value v => reprChunks kv.key ++ ["="] ++ valueChunks v
  | _ => []

theorem inlinePairChunks_pos (items : List TableKeyValue) (i : Nat) :
    inlinePairChunks (i + 1) items
      = (((items.filter (fun kv => kv.value.is_value)).map
            (fun kv => "," :: pairChunks kv))).flatten := by
  induction items generalizing i with
  | nil => rfl
  | cons kv rest ih =>
    obtain ⟨key, item⟩ := kv
    cases item with
    | Value v =>
      rw [inlinePairChunks, if_pos (Nat.succ_pos i)]
      rw [List.filter_cons_of_pos (by simp [TableKeyValue.value, Item.is_value])]
      rw [List.map_cons, List.flatten_cons, ih (i + 1)]
      simp [pairChunks, TableKeyValue.value, TableKeyValue.key, Function.comp_def]
    | None =>
      rw [inlinePairChunks, ih i,
        List.filter_cons_of_neg (by simp [TableKeyValue.value, Item.is_value])]
    | Table t1 =>
      rw [inlinePairChunks, ih i,
        List.filter_cons_of_neg (by simp [TableKeyValue.value, Item.is_value])]
    | ArrayOfTables ts =>
      rw [inlinePairChunks, ih i,
        List.filter_cons_of_neg (by simp [TableKeyValue.value, Item.is_value])]

theorem inlinePairChunks_zero (items : List TableKeyValue) :
    inlinePairChunks 0 items
      = sepJoin ((items.filter (fun kv => kv.value.is_value)).map pairChunks) := by
  induction items with
  | nil => rfl
  | cons kv rest ih =>
    obtain ⟨key, item⟩ := kv
    cases item with
    | Value v =>
      rw [inlinePairChunks, if_neg (by omega)]
      rw [List.filter_cons_of_pos (by simp [TableKeyValue.value, Item.is_value])]
      rw [List.map_cons, inlinePairChunks_pos rest 0]
      simp [sepJoin, pairChunks, TableKeyValue.value, TableKeyValue.key, List.map_map,
        Function.comp_def]
    | None =>
      rw [inlinePairChunks, ih,
        List.filter_cons_of_neg (by simp [TableKeyValue.value, Item.is_value])]
    | Table t1 =>
      rw [inlinePairChunks, ih,
        List.filter_cons_of_neg (by simp [TableKeyValue.value, Item.is_value])]
    | ArrayOfTables ts =>
      rw [inlinePairChunks, ih,
        List.filter_cons_of_neg (by simp [TableKeyValue.value, Item.is_value])]

/-! Concrete documents used as claim instances and witnesses. -/

/-- Empty decoration. -/
def eDec : Decor := ⟨"", ""⟩

/-- A bare, undecorated key. -/
def bareKey (s : String) : Toml.Repr := ⟨eDec, s⟩

/-- An undecorated integer value with the given raw text. -/
def intVal (s : String) : Value := .Integer ⟨1, ⟨eDec, s⟩⟩

/-- The document of the concrete reordering scenario: parsed source order
`a`, `[b]` (position 1), `[b.c]` (position 2), `[d]` (position 3), then
structurally mutated so that the subtree holding the `[b.c]` table comes
before the `[b]` table in the mapping insertion order (the `[b.c]` table
sits under an implicit, value-less entry keyed `b`), with every stored
position unchanged. -/
def docC1 : Document :=
  ⟨Table.mk eDec false none
    [⟨bareKey "a", .Value (intVal "1")⟩,
     ⟨bareKey "b", .Table (Table.mk eDec true none
        [⟨bareKey "c", .Table (Table.mk eDec false (some 2) [])⟩])⟩,
     ⟨bareKey "b", .Table (Table.mk eDec false (some 1) [])⟩,
     ⟨bareKey "d", .Table (Table.mk eDec false (some 3) [])⟩], ""⟩

/-- A document whose structural order is `[y]` (position 2), then a
position-less table `[n]`, then `[x]` (position 1): the position-less
table's anchor in DFS order is the positioned sibling `[y]`. -/
def docC2 : Document :=
  ⟨Table.mk eDec false none
    [⟨bareKey "y", .Table (Table.mk eDec false (some 2) [])⟩,
     ⟨bareKey "n", .Table (Table.mk eDec false none [])⟩,
     ⟨bareKey "x", .Table (Table.mk eDec false (some 1) [])⟩], ""⟩

/-- A document with a root value entry and no positioned table at all. -/
def doc0 : Document :=
  ⟨Table.mk eDec false none [⟨bareKey "a", .Value (intVal "1")⟩], ""⟩

/-- An implicit table with no direct value entries. -/
def tImp : Table := Table.mk eDec true (some 0) []

/-- A document whose only nested table is an implicit, value-less
array-of-tables member at key `k`. -/
def docAot : Document :=
  ⟨Table.mk eDec false none [⟨bareKey "k", .ArrayOfTables [tImp]⟩], ""⟩

/-- A document with a root value entry, no positions and a trailing
comment. -/
def docC4w : Document :=
  ⟨Table.mk eDec false none [⟨bareKey "a", .Value (intVal "1")⟩], "# eof
"⟩

/-- An inline table with three entries whose middle entry is not a plain
value. -/
def inline3 : InlineTable :=
  .mk eDec ""
    [⟨bareKey "p", .Value (intVal "1")⟩,
     ⟨bareKey "q", .Table (Table.mk eDec false none [])⟩,
     ⟨bareKey "r", .Value (intVal "2")⟩]

/-- Claim C1: for the document parsed in source order `a`, `[b]`, `[b.c]`,
`[d]` and then structurally mutated so that the `[b.c]` table precedes the
`[b]` table in DFS order (third conjunct: the visited paths show
`["b","c"]` before `["b"]`) while all stored positions are unchanged,
`to_string_in_original_order` still emits `[b]` before `[b.c]` before
`[d]`, following the recorded positions, while the plain `Display` render
follows the mutated structural order. -/
theorem claim_C1 :
    Document.to_string_in_original_order docC1 = "a=1\n[b]\n[b.c]\n[d]\n"
      ∧ Document.toDisplayString docC1 = "a=1\n[b.c]\n[b]\n[d]\n"
      ∧ (plainVisits docC1.as_table).map (fun e => e.2.1)
          = [[], ["b"], ["b", "c"], ["b"], ["d"]] := by
  have hsimp : Document.to_string_in_original_order docC1
        = "a=1\n[" ++ String.intercalate "." ["b"] ++ "]" ++ "\n"
          ++ "[" ++ String.intercalate "." ["b", "c"] ++ "]" ++ "\n"
          ++ "[" ++ String.intercalate "." ["d"] ++ "]" ++ "\n"
      ∧ Document.toDisplayString docC1
        = "a=1\n[" ++ String.intercalate "." ["b", "c"] ++ "]" ++ "\n"
          ++ "[" ++ String.intercalate "." ["b"] ++ "]" ++ "\n"
          ++ "[" ++ String.intercalate "." ["d"] ++ "]" ++ "\n"
      ∧ (plainVisits docC1.as_table).map (fun e => e.2.1)
          = [[], ["b"], ["b", "c"], ["b"], ["d"]] := by
    refine ⟨?_, ?_, ?_⟩ <;>
      simp [docC1, eDec, bareKey, intVal, Document.to_string_in_original_order,
        visit_nested_tables_in_original_order, Document.as_table, Document.toDisplayString,
        documentChunks, tableDisplayChunks, visit_nested_tables, visitItemsAux, visitAotAux,
        ooLoop, ooStep, okOf, sortNat, insertNat, except_ok_bind, except_pure, Table.position,
        Table.items, Table.decor, Table.implicit, Table.values_len, visitTableChunks,
        bodyChunks, reprChunks, valueChunks, formattedChunks, TableKeyValue.key,
        TableKeyValue.value, Item.is_value, String.join, plainVisits]
  refine ⟨hsimp.1.trans (by rfl), hsimp.2.1.trans (by rfl), hsimp.2.2⟩

/-- Claim C7: rendering an `Array` emits, in order, the decor prefix, `[`,
the elements joined by bare commas (exactly n − 1 separator chunks for n
elements, stated by the length identity of `sepJoin`, and independent of
`trailing_comma`), then one extra `,` exactly when `trailing_comma` is
set, the raw trailing text, `]`, and the decor suffix; an empty array
still emits the trailing text and the optional trailing comma. -/
theorem claim_C7 (a : Array) :
    (arrayChunks a
        = [a.decor.pre, "["] ++ sepJoin (a.values.map valueChunks)
          ++ (if a.trailing_comma then [","] else []) ++ [a.trailing, "]", a.decor.suf])
      ∧ (∀ (c : List String) (cs : List (List String)),
          (sepJoin (c :: cs)).length = ((c :: cs).map List.length).sum + cs.length)
      ∧ (a.values = [] →
          arrayChunks a
            = [a.decor.pre, "["] ++ (if a.trailing_comma then [","] else [])
              ++ [a.trailing, "]", a.decor.suf]) := by
  obtain ⟨de, tr, tc, vs⟩ := a
  refine ⟨?_, ?_, ?_⟩
  · rw [arrayChunks, joinValueChunks_zero]
    simp [Array.decor, Array.trailing, Array.trailing_comma, Array.values]
  · intro c cs
    rw [sepJoin]
    induction cs with
    | nil => simp
    | cons d cs ih =>
      simp only [List.map_cons, List.flatten_cons, List.length_append, List.length_cons,
        List.sum_cons] at ih ⊢
      omega
  · intro hv
    simp only [Array.values] at hv
    subst hv
    rw [arrayChunks, joinValueChunks]
    simp [Array.decor, Array.trailing, Array.trailing_comma]

/-- An empty array with trailing comment text and a trailing comma. -/
def arr0 : Array := .mk eDec " # done\n" true []

theorem claim_C7_witness :
    arr0.values = []
      ∧ arrayChunks arr0
          = [arr0.decor.pre, "["] ++ (if arr0.trailing_comma then [","] else [])
            ++ [arr0.trailing, "]", arr0.decor.suf] :=
  ⟨rfl, (claim_C7 arr0).2.2 rfl⟩

/-- Claim C8: rendering an `InlineTable` emits the decor prefix, `{`, the
preamble, then `key=value` exactly for the entries whose item is a plain
value (the others are skipped silently), with a `,` only between
consecutive emitted entries, then `}` and the decor suffix; the concrete
three-entry table whose second entry is not a plain value renders exactly
two pairs joined by a single comma. -/
theorem claim_C8 :
    (∀ it : InlineTable,
      inlineTableChunks it
        = [it.decor.pre, "\x7b", it.preamble]
          ++ sepJoin ((it.items.filter (fun kv => kv.value.is_value)).map pairChunks)
          ++ ["\x7d", it.decor.suf])
      ∧ String.join (inlineTableChunks inline3) = "\x7bp=1,r=2\x7d"
      ∧ ((inline3.items.filter (fun kv => kv.value.is_value)).map pairChunks).length = 2 := by
  refine ⟨?_, ?_, ?_⟩
  · intro it
    obtain ⟨de, pre1, items⟩ := it
    rw [inlineTableChunks, inlinePairChunks_zero]
    simp [InlineTable.decor, InlineTable.preamble, InlineTable.items]
  · simp [inline3, eDec, bareKey, intVal, inlineTableChunks, inlinePairChunks, reprChunks,
      valueChunks, formattedChunks, TableKeyValue.key, TableKeyValue.value, String.join]
  · simp [inline3, eDec, bareKey, intVal, InlineTable.items, TableKeyValue.value,
      Item.is_value]

/-- Claim C5, counterexample: an array-of-tables member with
`implicit = true` and zero direct value entries still gets its `[[k]]`
header line, in both rendering modes — the implicit-suppression rule of
`visit_table` only guards the plain-table branch. -/
theorem claim_C5_counterexample :
    tImp.implicit = true ∧ tImp.values_len = 0
      ∧ Document.toDisplayString docAot = "[[k]]\n"
      ∧ Document.to_string_in_original_order docAot = "[[k]]\n" := by
  refine ⟨rfl, rfl, ?_, ?_⟩ <;>
    (simp [docAot, tImp, eDec, bareKey, Document.to_string_in_original_order,
      visit_nested_tables_in_original_order, Document.as_table, Document.toDisplayString,
      documentChunks, tableDisplayChunks, visit_nested_tables, visitItemsAux, visitAotAux,
      ooLoop, ooStep, okOf, sortNat, insertNat, except_ok_bind, except_pure, Table.position,
      Table.items, Table.decor, Table.implicit, Table.values_len, visitTableChunks,
      bodyChunks, reprChunks, TableKeyValue.key, TableKeyValue.value, Item.is_value,
      String.join]
     try rfl)

/-- Claim C5 (amended): a table with `implicit = true` and zero direct
value entries emits no header line when visited as a plain table (not as
an array-of-tables member): its rendered block is exactly its body lines.
Array-of-tables members always print their `[[...]]` header (see the
counterexample), so the suppression rule holds only for plain tables.
Both rendering modes print per-table blocks through this one function. -/
theorem claim_C5 (t : Table) (path : List String)
    (h1 : t.implicit = true) (h2 : t.values_len = 0) :
    visitTableChunks t path false = bodyChunks t.items := by
  rw [visitTableChunks]
  by_cases hp : path.isEmpty
  · simp [hp]
  · simp [hp, h1, h2]

theorem claim_C5_witness :
    (tImp.implicit = true ∧ tImp.values_len = 0)
      ∧ visitTableChunks tImp ["z"] false = bodyChunks tImp.items :=
  ⟨⟨rfl, rfl⟩, claim_C5 tImp ["z"] rfl rfl⟩

/-- Claim C4: if no table reachable from the root (the root included)
carries a position, the original-order render emits nothing except the
document's trailing text: the schedule is empty, so the loop body never
runs and no block — not even the root's key=value entries — is written. -/
theorem claim_C4 (d : Document)
    (h : ∀ e ∈ plainVisits d.as_table, vpos e = none) :
    Document.to_string_in_original_order d = d.trailing := by
  rw [to_string_in_original_order_eq]
  have hP : collectedPositions d.as_table = [] := by
    rw [collectedPositions_eq, List.filterMap_eq_nil_iff]
    intro e he
    exact h e (by rw [plainVisits_eq]; exact he)
  rw [ooEmitSeq, hP]
  rw [show sortNat [] = [] from rfl]
  rw [loopModel_any_fuel_empty]
  rw [show blocksConcat [] = [] from rfl]
  rw [show String.join [] = "" from rfl]
  exact String.empty_append _

theorem claim_C4_witness :
    (∀ e ∈ plainVisits docC4w.as_table, vpos e = none)
      ∧ Document.to_string_in_original_order docC4w = docC4w.trailing := by
  have h : ∀ e ∈ plainVisits docC4w.as_table, vpos e = none := by
    simp [docC4w, eDec, bareKey, intVal, plainVisits, visit_nested_tables, visitItemsAux,
      visitAotAux, okOf, except_ok_bind, except_pure, Table.items, TableKeyValue.value,
      Document.as_table, vpos, Table.position]
  exact ⟨h, claim_C4 docC4w h⟩

/-- Claim C2: in the original-order output, the visits decompose as the
leading run of position-less tables (printed in the first pass), followed
by one segment per scheduled position, in schedule (cursor) order — each
segment being the positioned table that matched the cursor and set
`should_print`, followed immediately and contiguously by the run of
position-less tables structurally following it in DFS order.  In
particular a table inserted with `position = None` among positioned
siblings is rendered immediately after the most recently preceding
positioned sibling. -/
theorem claim_C2 (t : Table) (h1 : (collectedPositions t).Nodup)
    (h2 : collectedPositions t ≠ []) :
    ooVisits t
      = (plainVisits t).takeWhile isNoneV
        ++ ((sortNat (collectedPositions t)).map (segment (plainVisits t))).flatten := by
  rw [ooVisits_eq, plainVisits_eq]
  exact ooEmitSeq_char t h1 h2

theorem claim_C2_witness :
    ((collectedPositions docC2.as_table).Nodup ∧ collectedPositions docC2.as_table ≠ [])
      ∧ ooVisits docC2.as_table
          = (plainVisits docC2.as_table).takeWhile isNoneV
            ++ ((sortNat (collectedPositions docC2.as_table)).map
                  (segment (plainVisits docC2.as_table))).flatten := by
  have hval : collectedPositions docC2.as_table = [2, 1] := by
    simp [docC2, eDec, bareKey, collectedPositions, visitSeq, seqItems, seqAot, vpos,
      Table.items, Table.position, TableKeyValue.value, TableKeyValue.key,
      Document.as_table, Repr.raw_value]
  have h1 : (collectedPositions docC2.as_table).Nodup := by rw [hval]; decide
  have h2 : collectedPositions docC2.as_table ≠ [] := by rw [hval]; decide
  exact ⟨⟨h1, h2⟩, claim_C2 docC2.as_table h1 h2⟩

/-- Claim C3, counterexample: for a document with no positioned table but
a non-empty root body, the original-order render emits no block at all
while the plain render emits the root's `a=1` body block — the two modes
do not emit the same collection of blocks on every document. -/
theorem claim_C3_counterexample :
    (ooVisits doc0.as_table).map blockStr = []
      ∧ (plainVisits doc0.as_table).map blockStr = ["a=1\n"]
      ∧ ¬ (((ooVisits doc0.as_table).map blockStr).Perm
            ((plainVisits doc0.as_table).map blockStr)) := by
  have h1 : (ooVisits doc0.as_table).map blockStr = [] := by
    simp [doc0, eDec, bareKey, intVal, ooVisits, visit_nested_tables_in_original_order,
      visit_nested_tables, visitItemsAux, visitAotAux, ooLoop, ooStep, okOf, sortNat,
      insertNat, except_ok_bind, except_pure, Table.position, Table.items, Document.as_table,
      TableKeyValue.value]
  have h2 : (plainVisits doc0.as_table).map blockStr = ["a=1\n"] := by
    have : (plainVisits doc0.as_table).map blockStr
        = [String.join (visitTableChunks doc0.as_table [] false)] := by
      simp [doc0, eDec, bareKey, intVal, plainVisits, visit_nested_tables, visitItemsAux,
        visitAotAux, okOf, except_ok_bind, except_pure, Table.items, TableKeyValue.value,
        Document.as_table, blockStr, blockChunks]
    rw [this]
    rfl
  refine ⟨h1, h2, ?_⟩
  rw [h1, h2]
  intro hperm
  simpa using hperm.length_eq

/-- Claim C3 (amended): provided at least one table carries a position and
positions are unique (the documented invariant), the original-order render
emits exactly the same collection of per-table blocks as the plain DFS
render — none dropped, none duplicated, only the order differs — and both
text outputs are the concatenation of their respective block sequences
followed by the trailing text.  When no table has a position the
original-order render instead emits no block at all (see the
counterexample and claim C4). -/
theorem claim_C3 (d : Document) (h1 : (collectedPositions d.as_table).Nodup)
    (h2 : collectedPositions d.as_table ≠ []) :
    (((ooVisits d.as_table).map blockStr).Perm ((plainVisits d.as_table).map blockStr))
      ∧ Document.to_string_in_original_order d
          = String.join (blocksConcat (ooVisits d.as_table)) ++ d.trailing
      ∧ Document.toDisplayString d
          = String.join (blocksConcat (plainVisits d.as_table)) ++ d.trailing := by
  refine ⟨?_, ?_, ?_⟩
  · rw [ooVisits_eq, plainVisits_eq]
    exact (ooEmitSeq_perm d.as_table h1 h2).map blockStr
  · rw [ooVisits_eq]
    exact to_string_in_original_order_eq d
  · rw [plainVisits_eq]
    exact toDisplayString_eq d

theorem claim_C3_witness :
    ((collectedPositions docC2.as_table).Nodup ∧ collectedPositions docC2.as_table ≠ [])
      ∧ ((((ooVisits docC2.as_table).map blockStr).Perm
            ((plainVisits docC2.as_table).map blockStr))
        ∧ Document.to_string_in_original_order docC2
            = String.join (blocksConcat (ooVisits docC2.as_table)) ++ docC2.trailing
        ∧ Document.toDisplayString docC2
            = String.join (blocksConcat (plainVisits docC2.as_table)) ++ docC2.trailing) := by
  have hval : collectedPositions docC2.as_table = [2, 1] := by
    simp [docC2, eDec, bareKey, collectedPositions, visitSeq, seqItems, seqAot, vpos,
      Table.items, Table.position, TableKeyValue.value, TableKeyValue.key,
      Document.as_table, Repr.raw_value]
  have h1 : (collectedPositions docC2.as_table).Nodup := by rw [hval]; decide
  have h2 : collectedPositions docC2.as_table ≠ [] := by rw [hval]; decide
  exact ⟨⟨h1, h2⟩, claim_C3 docC2 h1 h2⟩

/-- The DFS-visit collecting callback (infallible). -/
def cbCollect : Table → List String → Bool → List Visit → Except Empty (List Visit) :=
  fun t p b s => Except.ok (s ++ [(t, p, b)])

/-- Claim C6: the `while current_position.is_some()` loop of
`visit_nested_tables_in_original_order` terminates within (number of
distinct positions + 1) full tree passes: under the documented invariant
that positions are unique, giving the loop any fuel beyond
`positions.len() + 1` changes nothing (first conjunct, for every callback
and state), and after those passes the schedule cursor is exhausted
(second conjunct). -/
theorem claim_C6 (t : Table) (hnodup : (collectedPositions t).Nodup) :
    (∀ (σ ε : Type) (cb : Table → List String → Bool → σ → Except ε σ) (s : σ) (extra : Nat),
      ooLoop cb t false ((collectedPositions t).length + 1 + extra) []
          ⟨(sortNat (collectedPositions t)).head?, (sortNat (collectedPositions t)).tail,
            true, s⟩
        = ooLoop cb t false ((collectedPositions t).length + 1) []
          ⟨(sortNat (collectedPositions t)).head?, (sortNat (collectedPositions t)).tail,
            true, s⟩)
    ∧ (okOf (ooLoop cbCollect t false ((collectedPositions t).length + 1) []
          ⟨(sortNat (collectedPositions t)).head?, (sortNat (collectedPositions t)).tail,
            true, []⟩)).2.current = none := by
  have hHU : ∀ q, (visitSeq t [] false).countP (hasPos q) ≤ 1 := by
    refine HU_of_nodup _ ?_
    rw [← collectedPositions_eq]
    exact hnodup
  have hmem : ∀ p ∈ sortNat (collectedPositions t),
      ∃ x ∈ visitSeq t [] false, vpos x = some p := by
    intro p hp
    have hp2 : p ∈ collectedPositions t := (sortNat_perm _).mem_iff.mp hp
    rw [collectedPositions_eq] at hp2
    obtain ⟨x, hx, hxp⟩ := List.mem_filterMap.mp hp2
    exact ⟨x, hx, hxp⟩
  have hlen : (sortNat (collectedPositions t)).length = (collectedPositions t).length :=
    (sortNat_perm _).length_eq
  constructor
  · intro σ ε cb s extra
    rw [ooLoop_sim, ooLoop_sim]
    rw [loopModel_fuel_indep (visitSeq t [] false) hHU (sortNat (collectedPositions t)) hmem
      ((collectedPositions t).length + 1 + extra) ((collectedPositions t).length + 1)
      (by omega) (by omega)]
  · rw [ooLoop_sim]
    have hfv := foldCB_visits
      (loopModel ((collectedPositions t).length + 1) (sortNat (collectedPositions t), true)
        (visitSeq t [] false)).2 []
    rw [show foldCB cbCollect
        (loopModel ((collectedPositions t).length + 1) (sortNat (collectedPositions t), true)
          (visitSeq t [] false)).2 []
      = Except.ok ([] ++ (loopModel ((collectedPositions t).length + 1)
          (sortNat (collectedPositions t), true) (visitSeq t [] false)).2) from hfv]
    simp only [except_map_ok, okOf]
    by_cases hP : collectedPositions t = []
    · rw [hP, show sortNat [] = [] from rfl]
      rw [loopModel_any_fuel_empty]
      rfl
    · have hchar := loopModel_char (visitSeq t [] false) hHU (sortNat (collectedPositions t))
        hmem (by
          intro hcon
          exact hP (List.length_eq_zero.mp (by rw [← hlen, hcon]; rfl)))
        ((collectedPositions t).length + 1) (by omega)
      rw [hchar.2]
      rfl

theorem claim_C6_witness :
    (collectedPositions docC2.as_table).Nodup
      ∧ ((∀ (σ ε : Type) (cb : Table → List String → Bool → σ → Except ε σ) (s : σ)
            (extra : Nat),
          ooLoop cb docC2.as_table false
              ((collectedPositions docC2.as_table).length + 1 + extra) []
              ⟨(sortNat (collectedPositions docC2.as_table)).head?,
                (sortNat (collectedPositions docC2.as_table)).tail, true, s⟩
            = ooLoop cb docC2.as_table false
              ((collectedPositions docC2.as_table).length + 1) []
              ⟨(sortNat (collectedPositions docC2.as_table)).head?,
                (sortNat (collectedPositions docC2.as_table)).tail, true, s⟩)
        ∧ (okOf (ooLoop cbCollect docC2.as_table false
              ((collectedPositions docC2.as_table).length + 1) []
              ⟨(sortNat (collectedPositions docC2.as_table)).head?,
                (sortNat (collectedPositions docC2.as_table)).tail,
                true, []⟩)).2.current = none) := by
  have hval : collectedPositions docC2.as_table = [2, 1] := by
    simp [docC2, eDec, bareKey, collectedPositions, visitSeq, seqItems, seqAot, vpos,
      Table.items, Table.position, TableKeyValue.value, TableKeyValue.key,
      Document.as_table, Repr.raw_value]
  have h1 : (collectedPositions docC2.as_table).Nodup := by rw [hval]; decide
  exact ⟨h1, claim_C6 docC2.as_table h1⟩

/-- Claim C9: at every callback invocation of the DFS visitor the path
accumulator equals the starting path extended by the key sequence from the
start table down to the visited table (`Reach`), and a traversal call that
returns `Ok` hands the caller's path stack back exactly as it was. -/
theorem claim_C9 :
    (∀ (σ ε : Type) (cb : Table → List String → Bool → σ → Except ε σ)
        (t : Table) (b : Bool) (path : List String) (s : σ) (p2 : List String) (s2 : σ),
        visit_nested_tables cb t b path s = Except.ok (p2, s2) → p2 = path)
      ∧ (∀ (t : Table) (path : List String) (b : Bool) (e : Visit),
          e ∈ visitSeq t path b → ∃ rel, e.2.1 = path ++ rel ∧ Reach t b rel e.2.2 e.1) :=
  ⟨fun _ _ cb t b path s p2 s2 h => visit_restores_path cb t b path s p2 s2 h,
   fun t path b e he => reach_visitSeq t path b e he⟩

theorem claim_C9_witness :
    (visit_nested_tables cbCollect docC2.as_table false ["w"] ([] : List Visit)
        = Except.ok (["w"], visitSeq docC2.as_table ["w"] false)
      ∧ (["w"] : List String) = ["w"])
    ∧ ((Table.mk eDec false (some 2) [], (["w", "y"] : List String), false)
          ∈ visitSeq docC2.as_table ["w"] false
      ∧ ∃ rel, (["w", "y"] : List String) = ["w"] ++ rel
          ∧ Reach docC2.as_table false rel false (Table.mk eDec false (some 2) [])) := by
  have hrun : visit_nested_tables cbCollect docC2.as_table false ["w"] ([] : List Visit)
      = Except.ok (["w"], visitSeq docC2.as_table ["w"] false) := by
    simp [docC2, eDec, bareKey, cbCollect, visit_nested_tables, visitItemsAux, visitAotAux,
      except_ok_bind, except_pure, Table.items, TableKeyValue.value, TableKeyValue.key,
      Document.as_table, visitSeq, seqItems, seqAot, Repr.raw_value]
  have hmem : (Table.mk eDec false (some 2) [], (["w", "y"] : List String), false)
      ∈ visitSeq docC2.as_table ["w"] false := by
    simp [docC2, eDec, bareKey, Document.as_table, visitSeq, seqItems, seqAot,
      Table.items, TableKeyValue.value, TableKeyValue.key, Repr.raw_value]
  refine ⟨⟨hrun, claim_C9.1 (List Visit) Empty cbCollect docC2.as_table false ["w"] []
      ["w"] (visitSeq docC2.as_table ["w"] false) hrun⟩, hmem, ?_⟩
  exact claim_C9.2 docC2.as_table ["w"] false
    (Table.mk eDec false (some 2) [], (["w", "y"] : List String), false) hmem

/-- Claim C10: rendering against a fallible write sink, in either mode: if
every write succeeds the full chunk stream is written; if the k-th write
is the first to fail, the render stops right there — the attempt log of
the propagated error is exactly the first k + 1 chunks (the failing
attempt included), so no write is attempted after the failing one. -/
theorem claim_C10 (d : Document) (sk : Sink) :
    ((∀ i, i < (documentChunks d).length → sk.ok i = true) →
        documentSinkRender sk d [] = Except.ok (documentChunks d))
    ∧ (∀ k, k < (documentChunks d).length → sk.ok k = false →
        (∀ j, j < k → sk.ok j = true) →
        documentSinkRender sk d [] = Except.error ((documentChunks d).take (k + 1)))
    ∧ ((∀ i, i < (ooChunks d).length → sk.ok i = true) →
        ooSinkRender sk d [] = Except.ok (ooChunks d))
    ∧ (∀ k, k < (ooChunks d).length → sk.ok k = false →
        (∀ j, j < k → sk.ok j = true) →
        ooSinkRender sk d [] = Except.error ((ooChunks d).take (k + 1))) := by
  refine ⟨?_, ?_, ?_, ?_⟩
  · intro h
    rw [documentSinkRender_eq,
      emitChunks_all_ok sk (documentChunks d) [] (fun i hi => by simpa using h i hi)]
    simp
  · intro k hk hfail hok
    rw [documentSinkRender_eq,
      emitChunks_fail sk (documentChunks d) [] k (by simpa using hk) (by simpa using hfail)
        (fun j hj => by simpa using hok j hj)]
    simp
  · intro h
    rw [ooSinkRender_eq,
      emitChunks_all_ok sk (ooChunks d) [] (fun i hi => by simpa using h i hi)]
    simp
  · intro k hk hfail hok
    rw [ooSinkRender_eq,
      emitChunks_fail sk (ooChunks d) [] k (by simpa using hk) (by simpa using hfail)
        (fun j hj => by simpa using hok j hj)]
    simp

/-- The always-succeeding sink. -/
def skT : Sink := ⟨fun _ => true⟩

/-- A sink whose third write attempt (index 2) fails. -/
def skF : Sink := ⟨fun n => !(n == 2)⟩

/-- The always-failing sink. -/
def sk0 : Sink := ⟨fun _ => false⟩

theorem claim_C10_witness :
    ((∀ i, i < (documentChunks doc0).length → skT.ok i = true)
      ∧ documentSinkRender skT doc0 [] = Except.ok (documentChunks doc0))
    ∧ ((2 < (documentChunks doc0).length ∧ skF.ok 2 = false ∧ (∀ j, j < 2 → skF.ok j = true))
      ∧ documentSinkRender skF doc0 [] = Except.error ((documentChunks doc0).take 3))
    ∧ ((∀ i, i < (ooChunks doc0).length → skT.ok i = true)
      ∧ ooSinkRender skT doc0 [] = Except.ok (ooChunks doc0))
    ∧ ((0 < (ooChunks doc0).length ∧ sk0.ok 0 = false ∧ (∀ j, j < 0 → sk0.ok j = true))
      ∧ ooSinkRender sk0 doc0 [] = Except.error ((ooChunks doc0).take 1)) := by
  have hlen : (documentChunks doc0).length = 9 := by
    simp [doc0, eDec, bareKey, intVal, documentChunks, tableDisplayChunks,
      visit_nested_tables, visitItemsAux, visitAotAux, okOf, except_ok_bind, except_pure,
      Table.items, TableKeyValue.value, TableKeyValue.key, Document.as_table,
      visitTableChunks, bodyChunks, reprChunks, valueChunks, formattedChunks, Table.decor,
      Table.implicit, Table.values_len, Item.is_value]
  have hoolen : (ooChunks doc0).length = 1 := by
    simp [doc0, eDec, bareKey, intVal, ooChunks, ooEmitSeq, collectedPositions, visitSeq,
      seqItems, seqAot, vpos, sortNat, insertNat, loopModel, Table.items, Table.position,
      TableKeyValue.value, Document.as_table, blocksConcat]
  refine ⟨⟨fun i _ => rfl, (claim_C10 doc0 skT).1 (fun i _ => rfl)⟩,
          ⟨⟨by omega, rfl, ?hj⟩, (claim_C10 doc0 skF).2.1 2 (by omega) rfl ?hj⟩,
          ⟨fun i _ => rfl, (claim_C10 doc0 skT).2.2.1 (fun i _ => rfl)⟩,
          ⟨⟨by omega, rfl, fun j hj => absurd hj (by omega)⟩,
            (claim_C10 doc0 sk0).2.2.2 0 (by omega) rfl (fun j hj => absurd hj (by omega))⟩⟩
  case hj =>
    intro j hj
    interval_cases j <;> rfl

end Toml
